import Mathlib

/-!
Verification development for the rule-driven JSON-to-JSON projection engine
in `service/models.py` (classes `JSONManifest` and `JSONFactory`).

The Python code is shallowly embedded: JSON documents become the inductive
type `JSON`; Python dictionaries become association lists with Python's
insertion-order update semantics (`setKey`); Python list indexing (which
admits negative indices) becomes `pyGetL`/`pySetL`; code that can raise an
exception returns `Option` (`none` models a raised exception), and
`insert_value`, whose inner walker can also `return None`, returns `PyRet`.
All string manipulation from the source (`str.split`, `str.join`,
`str.replace`, `str.strip`, regex scanning) is modelled by executable
functions on `List Char`.
-/

set_option autoImplicit false

/-- A JSON document: objects (Python `dict`, keys in insertion order),
arrays (Python `list`), and the scalar leaves. -/
inductive JSON where
  | null : JSON
  | bool (b : Bool) : JSON
  | num (n : Int) : JSON
  | str (s : String) : JSON
  | arr (xs : List JSON) : JSON
  | obj (fields : List (String × JSON)) : JSON
  deriving Repr

mutual

/-- Structural equality of documents is decidable. -/
def JSON.beq : JSON → JSON → Bool
  | .null, .null => true
  | .bool a, .bool b => a == b
  | .num a, .num b => a == b
  | .str a, .str b => a == b
  | .arr xs, .arr ys => JSON.beqArr xs ys
  | .obj fs, .obj gs => JSON.beqObj fs gs
  | _, _ => false

/-- Elementwise equality for array contents. -/
def JSON.beqArr : List JSON → List JSON → Bool
  | [], [] => true
  | x :: xs, y :: ys => JSON.beq x y && JSON.beqArr xs ys
  | _, _ => false

/-- Elementwise equality for object fields. -/
def JSON.beqObj : List (String × JSON) → List (String × JSON) → Bool
  | [], [] => true
  | (k, v) :: fs, (l, w) :: gs => k == l && JSON.beq v w && JSON.beqObj fs gs
  | _, _ => false

end

theorem JSON.beqArr_iff (n : Nat)
    (ih : ∀ a b : JSON, sizeOf a ≤ n → (JSON.beq a b = true ↔ a = b)) :
    ∀ xs ys : List JSON, (∀ x ∈ xs, sizeOf x ≤ n) →
      (JSON.beqArr xs ys = true ↔ xs = ys) := by
  intro xs
  induction xs with
  | nil => intro ys _; cases ys <;> simp [JSON.beqArr]
  | cons x xs ihx =>
    intro ys hsz
    cases ys with
    | nil => simp [JSON.beqArr]
    | cons y ys =>
      have h1 := ih x y (hsz x (by simp))
      have h2 := ihx ys (fun z hz => hsz z (by simp [hz]))
      simp [JSON.beqArr, h1, h2]

theorem JSON.beqObj_iff (n : Nat)
    (ih : ∀ a b : JSON, sizeOf a ≤ n → (JSON.beq a b = true ↔ a = b)) :
    ∀ fs gs : List (String × JSON), (∀ f ∈ fs, sizeOf f.2 ≤ n) →
      (JSON.beqObj fs gs = true ↔ fs = gs) := by
  intro fs
  induction fs with
  | nil => intro gs _; cases gs <;> simp [JSON.beqObj]
  | cons f fs ihf =>
    intro gs hsz
    cases gs with
    | nil => simp [JSON.beqObj]
    | cons g gs =>
      obtain ⟨k, v⟩ := f
      obtain ⟨l, w⟩ := g
      have h1 := ih v w (hsz (k, v) (by simp))
      have h2 := ihf gs (fun z hz => hsz z (by simp [hz]))
      simp [JSON.beqObj, h1, h2, and_assoc]

theorem JSON.beq_iff_aux :
    ∀ (n : Nat) (a b : JSON), sizeOf a ≤ n → (JSON.beq a b = true ↔ a = b) := by
  intro n
  induction n with
  | zero =>
    intro a b h
    exfalso
    cases a <;> simp at h
  | succ n ih =>
    intro a b h
    cases a <;> cases b <;> simp [JSON.beq]
    case arr.arr xs ys =>
      refine JSON.beqArr_iff n ih xs ys (fun x hx => ?_)
      have hx' := List.sizeOf_lt_of_mem hx
      simp at h
      omega
    case obj.obj fs gs =>
      refine JSON.beqObj_iff n ih fs gs (fun f hf => ?_)
      have hf' := List.sizeOf_lt_of_mem hf
      obtain ⟨k, v⟩ := f
      simp at h hf' ⊢
      omega

theorem JSON.beq_iff (a b : JSON) : JSON.beq a b = true ↔ a = b :=
  JSON.beq_iff_aux (sizeOf a) a b (Nat.le_refl _)

instance : DecidableEq JSON := fun a b =>
  decidable_of_iff (JSON.beq a b = true) (JSON.beq_iff a b)

/-- `d.get k` on a Python dict: the value stored at key `k`, if present. -/
def lookupF : List (String × JSON) → String → Option JSON
  | [], _ => none
  | (k, v) :: fs, s => if k = s then some v else lookupF fs s

/-- `k in d` on a Python dict. -/
def hasKey (fields : List (String × JSON)) (k : String) : Bool :=
  fields.any (fun f => f.1 = k)

/-- `d[k] = v` on a Python dict: update in place if the key exists
(keeping its position), otherwise append the new pair at the end.
This is Python's insertion-order semantics. -/
def setKey (fields : List (String × JSON)) (k : String) (v : JSON) :
    List (String × JSON) :=
  if hasKey fields k then
    fields.map (fun f => if f.1 = k then (k, v) else f)
  else
    fields ++ [(k, v)]

/-- `dict(pairs)` on a list of key/value pairs: first occurrence fixes the
position, the last value for a duplicated key wins. -/
def pyDictJ (l : List (String × JSON)) : List (String × JSON) :=
  l.foldl (fun acc p => setKey acc p.1 p.2) []

/-- Python list indexing `l[i]` with negative-index support;
`none` models an `IndexError`. -/
def pyGetL {α : Type} (l : List α) (i : Int) : Option α :=
  let j : Int := if i < 0 then (l.length : Int) + i else i
  if j < 0 then none else l.get? j.toNat

/-- Python list element assignment `l[i] = x` with negative-index support;
`none` models an `IndexError`. -/
def pySetL {α : Type} (l : List α) (i : Int) (x : α) : Option (List α) :=
  let j : Int := if i < 0 then (l.length : Int) + i else i
  if j < 0 ∨ (l.length : Int) ≤ j then none else some (l.set j.toNat x)

/-! ### Characters and strings -/

/-- The whitespace recognised by Python's `str.strip()` and the regex `\s`
(ASCII model). -/
def pyIsSpace (c : Char) : Bool :=
  c = ' ' ∨ c = '\t' ∨ c = '\n' ∨ c = '\r' ∨ c = '\x0b' ∨ c = '\x0c'

/-- The regex word class `\w` (ASCII model): letters, digits, underscore. -/
def isWordChar (c : Char) : Bool :=
  c.isAlpha || c.isDigit || c = '_'

/-- Decimal digit characters. -/
def digitChar : Nat → Char
  | 0 => '0' | 1 => '1' | 2 => '2' | 3 => '3' | 4 => '4'
  | 5 => '5' | 6 => '6' | 7 => '7' | 8 => '8' | _ => '9'

/-- The reversed-accumulator worker of `natToStr`, fuelled so that it
reduces definitionally (the fuel bounds the number of digits). -/
def natToStrGo : Nat → Nat → List Char → List Char
  | 0, _, acc => acc
  | fuel + 1, n, acc =>
    if n = 0 then acc else natToStrGo fuel (n / 10) (digitChar (n % 10) :: acc)

/-- Python `str(n)` for a natural number. -/
def natToStr (n : Nat) : String :=
  if n = 0 then "0" else String.mk (natToStrGo n n [])

/-- Python `int(s)` for a string of decimal digits. -/
def digitsToNat (s : String) : Nat :=
  s.data.foldl (fun a c => a * 10 + (c.toNat - 48)) 0

/-- Python `str.split(sep)` for a single-character separator, on the
character list. Always yields at least one piece. -/
def splitOnChar (sep : Char) : List Char → List (List Char)
  | [] => [[]]
  | c :: rest =>
    if c = sep then [] :: splitOnChar sep rest
    else
      match splitOnChar sep rest with
      | g :: gs => (c :: g) :: gs
      | [] => [[c]]

/-- Python `str.split(sep)` for a single-character separator. -/
def pySplit (sep : Char) (s : String) : List String :=
  (splitOnChar sep s.data).map String.mk

/-- Interleave a separator between character-list pieces. -/
def joinSep (sep : Char) : List (List Char) → List Char
  | [] => []
  | [p] => p
  | p :: ps => p ++ sep :: joinSep sep ps

/-- Python `sep.join(parts)` for a single-character separator. -/
def pyJoin (sep : Char) (parts : List String) : String :=
  String.mk (joinSep sep (parts.map String.data))

/-- Worker for `pyStrip`: drop leading whitespace, then trailing. -/
def stripChars (l : List Char) : List Char :=
  ((l.dropWhile pyIsSpace).reverse.dropWhile pyIsSpace).reverse

/-- Python `str.strip()`. -/
def pyStrip (s : String) : String :=
  String.mk (stripChars s.data)

/-- Does `pat` occur as a prefix of `l`? -/
def isPrefixOfL : List Char → List Char → Bool
  | [], _ => true
  | _ :: _, [] => false
  | p :: ps, c :: cs => p = c && isPrefixOfL ps cs

/-- Python `str.replace(pat, "")` for a nonempty `pat`: remove all
non-overlapping occurrences, scanning left to right. Fuelled by the input
length (each step consumes at least one character). -/
def removeAllGo (pat : List Char) : Nat → List Char → List Char
  | 0, _ => []
  | _, [] => []
  | fuel + 1, l@(c :: rest) =>
    if isPrefixOfL pat l ∧ pat ≠ [] then
      removeAllGo pat fuel (l.drop pat.length)
    else
      c :: removeAllGo pat fuel rest

/-- Python `s.replace(pat, "")` for a nonempty pattern. -/
def removeAll (s pat : String) : String :=
  String.mk (removeAllGo pat.data s.data.length s.data)

/-- Python `str.split(sep)` for a multi-character separator: split on all
non-overlapping occurrences, scanning left to right. -/
def splitOnStrGo (pat : List Char) : Nat → List Char → List (List Char)
  | 0, _ => [[]]
  | _, [] => [[]]
  | fuel + 1, l@(c :: rest) =>
    if isPrefixOfL pat l ∧ pat ≠ [] then
      [] :: splitOnStrGo pat fuel (l.drop pat.length)
    else
      match splitOnStrGo pat fuel rest with
      | g :: gs => (c :: g) :: gs
      | [] => [[c]]

/-- Python `s.split(pat)` for a multi-character separator. -/
def splitOnStr (s pat : String) : List String :=
  (splitOnStrGo pat.data s.data.length s.data).map String.mk

/-! ### `JSONManifest.flatten`

Depth-first traversal of the document.  Objects extend the key list;
arrays rewrite the *last* key to append `[idx]`; anything else is a leaf
and emits `('.'.join(keys), value)`. -/

mutual

/-- The inner `iter_child` closure of `JSONManifest.flatten`. -/
def iterChild : JSON → List String → List (String × JSON)
  | .obj fields, keys => iterFields fields keys
  | .arr xs, keys => iterElems xs 0 keys
  | v, keys => [(pyJoin '.' keys, v)]

/-- `iter_child` on the items of a dict, in insertion order. -/
def iterFields : List (String × JSON) → List String → List (String × JSON)
  | [], _ => []
  | (k, v) :: rest, keys => iterChild v (keys ++ [k]) ++ iterFields rest keys

/-- `iter_child` on the elements of a list, with `enumerate` index. -/
def iterElems : List JSON → Nat → List String → List (String × JSON)
  | [], _, _ => []
  | v :: rest, idx, keys =>
    iterChild v
      (keys.dropLast ++ [(keys.getLastD "") ++ "[" ++ natToStr idx ++ "]"]) ++
    iterElems rest (idx + 1) keys

end

/-- `JSONManifest.flatten`: flatten a document to `(path, value)` pairs. -/
def flatten (data : JSON) : List (String × JSON) :=
  iterChild data ["$"]

/-! ### `JSONManifest` -/

/-- A mapping rule, `{source, target}`.  (The Python code reads the two
keys with `rule.get`; rules are modelled with both keys present.) -/
structure Rule where
  source : String
  target : String
  deriving DecidableEq, Repr

/-- A `JSONManifest`: the wrapped document and the rule list. -/
structure JSONManifest where
  data : JSON
  rules : List Rule
  deriving Repr

/-- The `_fdata` attribute: `dict(self.flatten(self._data))`. -/
def manifestFData (m : JSONManifest) : List (String × JSON) :=
  pyDictJ (flatten m.data)

/-- `JSONManifest.__iter__`: for every rule, scan the flattened map and
yield `(target, value)` on an exact `source` match. -/
def manifestPairs (m : JSONManifest) : List (String × JSON) :=
  m.rules.flatMap (fun r =>
    (manifestFData m).filterMap (fun pv =>
      if r.source = pv.1 then some (r.target, pv.2) else none))

/-! ### `JSONFactory.insert_value`

The result of a call to `insert_value`: the Python function can raise
(`exn`), fall through its walker's bare `return` and hand back `None`
(`noneRet`), or return the updated record (`val`). -/

inductive PyRet where
  | exn : PyRet
  | noneRet : PyRet
  | val (r : JSON) : PyRet
  deriving DecidableEq, Repr

/-- The first match of `re.search(r"\[(?P<index>\d+)\]", key)`: scan left to
right; at each `[`, match one or more digits followed by `]`.  Returns the
digit group of the leftmost match. -/
def findBracketNum : List Char → Option (List Char)
  | [] => none
  | c :: rest =>
    if c = '[' then
      let ds := rest.takeWhile Char.isDigit
      if ds ≠ [] ∧ (rest.drop ds.length).head? = some ']' then some ds
      else findBracketNum rest
    else findBracketNum rest

/-- `JSONFactory.insert_value._get_index` in the matched case: the key with
every occurrence of the matched `[digits]` text removed, and the integer
index.  `none` corresponds to the `return None, None` branch. -/
def getIndexF (key : String) : Option (String × Nat) :=
  match findBracketNum key.data with
  | some ds =>
    some (removeAll key (String.mk ('[' :: (ds ++ [']']))),
          digitsToNat (String.mk ds))
  | none => none

/-- The `_iter` walker of `insert_value`, on a nonempty key list
(`key :: rest`).  `none` models a raised exception.

Fidelity notes, traced from the source:
* a non-dict `reference` raises on every control path (`in` membership,
  item assignment, or `.get`), hence `none`;
* when `_get_index` matches, `reference[key]` is forced to exist (created
  as `[]`, which appends the key in insertion order), must be a list
  (otherwise `append`, `len` or int indexing raises), is padded with empty
  dicts up to `idx + 1` elements, and the element at `idx` is assigned;
* when `_get_index` does NOT match it returns the tuple `(None, None)`,
  and the source tests `if index:` — a 2-tuple is always truthy — so the
  code unpacks `key = None`, `idx = None`, stores `reference[None] = []`
  and immediately raises `TypeError` at `rlen <= idx` (`int <= None`).
  The plain-key `else` branch of `_iter` is dead code, so a plain key
  yields `none`. -/
def iterIV (value : JSON) : String → List String → JSON → Option JSON
  | key, rest, .obj fields =>
    (match getIndexF key with
     | some (k, idx) =>
       let fields1 := if hasKey fields k then fields else fields ++ [(k, .arr [])]
       match lookupF fields1 k with
       | some (.arr xs) =>
         let xs1 :=
           if xs.length ≤ idx then
             xs ++ List.replicate (idx + 1 - xs.length) (.obj [])
           else xs
         (match rest with
          | [] => some value
          | k' :: r' => iterIV value k' r' (xs1.getD idx (.obj []))).map
           (fun newElem => JSON.obj (setKey fields1 k (.arr (xs1.set idx newElem))))
       | _ => none
     | none => none)
  | _, _, _ => none

/-- `JSONFactory.insert_value`: split the path on `.`, drop a leading `$`,
and walk.  An empty key list makes `_iter` return `None` (`noneRet`). -/
def insert_value (path : String) (value : JSON) (record : JSON) : PyRet :=
  let keys := pySplit '.' path
  let keys1 :=
    match keys with
    | k :: rest => if k = "$" then rest else keys
    | [] => keys
  match keys1 with
  | [] => .noneRet
  | k :: rest =>
    match iterIV value k rest record with
    | some r => .val r
    | none => .exn

/-- `rebuildFromFlat`: re-insert every flattened `(path, value)` pair into
an initially empty record with `insert_value`, treating anything other
than a returned record as failure. -/
def rebuildFromFlat (pairs : List (String × JSON)) : Option JSON :=
  pairs.foldlM
    (fun r pv =>
      match insert_value pv.1 pv.2 r with
      | .val r' => some r'
      | _ => none)
    (JSON.obj [])

/-! ### `JSONFactory.parse_path`

An executable model of `RE_PAT.findall`.  The pattern is

  `\.(?P<key>\w+)(?:\[(?:(?P<index>\d+)|(?P<query>\?\(Q(?:\s*&&\s*Q)*\)))\])*`

with `Q = @\.\w+\s*==\s*VALS` and
`VALS = ['\"]\s*[\w\.\s-]+\s*['\"] | \d+ | true | false | null`.
On this pattern greedy matching without backtracking is equivalent to the
regex engine: every sub-pattern is followed by a delimiter that cannot
occur in the characters a greedy repetition would give back.  A repeated
group keeps its last capture, so a key followed by `[2]` and `[?(...)]`
yields a segment carrying both an index and a query. -/

/-- A parsed path segment: the `key`, `index` and `query` captures of one
`RE_PAT` match (`none` for a group that never fired). -/
structure Segment where
  key : String
  index : Option String
  query : Option String
  deriving DecidableEq, Repr

/-- The regex value class `[\w\.\s-]` used inside quoted literals. -/
def isValChar (c : Char) : Bool :=
  isWordChar c || c = '.' || pyIsSpace c || c = '-'

/-- Match a quoted literal: a quote, one or more value-class characters,
and a closing quote (either kind).  Returns the remainder. -/
def matchQuoted : List Char → Option (List Char)
  | c :: rest =>
    if c = '\'' ∨ c = '"' then
      let content := rest.takeWhile isValChar
      if content ≠ [] then
        match rest.drop content.length with
        | q :: r => if q = '\'' ∨ q = '"' then some r else none
        | [] => none
      else none
    else none
  | [] => none

/-- Match a literal token, returning the remainder. -/
def matchLit (pat l : List Char) : Option (List Char) :=
  if isPrefixOfL pat l then some (l.drop pat.length) else none

/-- Match `VALS` (alternatives in the regex's order). -/
def matchVals (l : List Char) : Option (List Char) :=
  matchQuoted l <|>
  (let ds := l.takeWhile Char.isDigit
   if ds ≠ [] then some (l.drop ds.length) else none) <|>
  matchLit "true".data l <|>
  matchLit "false".data l <|>
  matchLit "null".data l

/-- Match one equality condition `@\.\w+\s*==\s*VALS`. -/
def matchCond : List Char → Option (List Char)
  | '@' :: '.' :: rest =>
    let w := rest.takeWhile isWordChar
    if w = [] then none
    else
      match (rest.drop w.length).dropWhile pyIsSpace with
      | '=' :: '=' :: r2 => matchVals (r2.dropWhile pyIsSpace)
      | _ => none
  | _ => none

/-- Match the greedy repetition `(?:\s*&&\s*Q)*`: on a failed iteration the
remainder is the input before that iteration (fuelled by input length). -/
def matchCondsRest : Nat → List Char → List Char
  | 0, l => l
  | fuel + 1, l =>
    match l.dropWhile pyIsSpace with
    | '&' :: '&' :: r =>
      match matchCond (r.dropWhile pyIsSpace) with
      | some r2 => matchCondsRest fuel r2
      | none => l
    | _ => l

/-- Match the whole query group `\?\(Q(?:\s*&&\s*Q)*\)`. -/
def matchQuery : List Char → Option (List Char)
  | '?' :: '(' :: rest =>
    match matchCond rest with
    | some r =>
      match matchCondsRest r.length r with
      | ')' :: r3 => some r3
      | _ => none
    | none => none
  | _ => none

/-- The capture of one bracket qualifier: an index or a query group. -/
inductive QualCap where
  | qidx (ds : List Char) : QualCap
  | qqry (q : List Char) : QualCap
  deriving DecidableEq, Repr

/-- Match one `\[(?:(?P<index>\d+)|(?P<query>...))\]` qualifier. -/
def matchQual : List Char → Option (QualCap × List Char)
  | '[' :: rest =>
    let ds := rest.takeWhile Char.isDigit
    if ds ≠ [] ∧ (rest.drop ds.length).head? = some ']' then
      some (.qidx ds, (rest.drop ds.length).tail)
    else
      match matchQuery rest with
      | some r =>
        match r with
        | ']' :: r2 => some (.qqry (rest.take (rest.length - r.length)), r2)
        | _ => none
      | none => none
  | _ => none

/-- Match the greedy qualifier star, keeping the last capture of each
group across iterations (Python regex semantics for repeated groups). -/
def matchQuals :
    Nat → Option String → Option String → List Char →
      Option String × Option String × List Char
  | 0, idx, qry, l => (idx, qry, l)
  | fuel + 1, idx, qry, l =>
    match matchQual l with
    | some (.qidx ds, r) => matchQuals fuel (some (String.mk ds)) qry r
    | some (.qqry q, r) => matchQuals fuel idx (some (String.mk q)) r
    | none => (idx, qry, l)

/-- Match one full `RE_PAT` occurrence starting exactly here. -/
def matchSegment : List Char → Option (Segment × List Char)
  | '.' :: rest =>
    let k := rest.takeWhile isWordChar
    if k = [] then none
    else
      let iql := matchQuals rest.length none none (rest.drop k.length)
      some ({ key := String.mk k, index := iql.1, query := iql.2.1 }, iql.2.2)
  | _ => none

/-- `findall` scanning: leftmost matches, continuing after each match,
advancing one character past positions where no match starts. -/
def scanAll : Nat → List Char → List Segment
  | 0, _ => []
  | _, [] => []
  | fuel + 1, l =>
    match matchSegment l with
    | some (seg, rem) => seg :: scanAll fuel rem
    | none => scanAll fuel l.tail

/-- `JSONFactory.parse_path`: all `RE_PAT` matches of the path, each as a
`{key, index, query}` segment. -/
def parse_path (path : String) : List Segment :=
  scanAll path.data.length path.data

/-! ### `JSONFactory.insert_query` -/

/-- The per-term transformation inside the condition comprehension:
`t.strip().replace('@.', '').replace("'", '').replace('\"', '').strip()`. -/
def condTransform (t : String) : String :=
  pyStrip
    (removeAll
      (removeAll (removeAll (pyStrip t) "@.") (String.mk ['\'']))
      (String.mk ['"']))

/-- The condition comprehension: split `query[2:-1]` on `&&`, then split
each piece on `==` and transform every term.  A piece that does not split
into exactly two terms is a tuple of the wrong arity. -/
def parseConds (q : String) : List (List String) :=
  (splitOnStr (String.mk ((q.data.drop 2).dropLast)) "&&").map
    (fun s => (splitOnStr (pyStrip s) "==").map condTransform)

/-- Unpack the condition tuples as `(field, literal)` pairs; `none` if any
tuple does not have exactly two components (Python raises `ValueError`
when unpacking, in the match scan or in `dict(conditions)`). -/
def condPairs : List (List String) → Option (List (String × String))
  | [] => some []
  | [k, v] :: rest => (condPairs rest).map (fun ps => (k, v) :: ps)
  | _ => none

/-- `dict(conditions)`: the pre-populated element appended when a query
has no matching element.  Condition literals are stored as strings. -/
def condObj (conds : List (String × String)) : JSON :=
  .obj (conds.foldl (fun acc kv => setKey acc kv.1 (.str kv.2)) [])

/-- Is this document an object (a Python dict)? -/
def isObjB : JSON → Bool
  | .obj _ => true
  | _ => false

/-- `all(ele.get(k) == v for k, v in conditions)`: every condition field
must hold exactly the condition literal as a string. -/
def satisfiesAll (conds : List (String × String)) (e : JSON) : Bool :=
  conds.all (fun kv =>
    match e with
    | .obj fs =>
      match lookupF fs kv.1 with
      | some (.str s) => s = kv.2
      | _ => false
    | _ => false)

/-- The `indices` list: positions of array elements satisfying all
conditions, as Python ints. -/
def queryIndices (conds : List (String × String)) (xs : List JSON) : List Int :=
  xs.enum.filterMap (fun ie =>
    if satisfiesAll conds ie.2 then some (Int.ofNat ie.1) else none)

/-- The broadcast loop of `insert_query`: for every index in turn, read
the current element, update it, and write it back (Python list indexing,
so `-1` addresses the last element). -/
def pyListUpdate (upd : JSON → Option JSON) :
    List Int → List JSON → Option (List JSON)
  | [], xs => some xs
  | i :: is, xs =>
    (pyGetL xs i).bind (fun elem =>
      (upd elem).bind (fun e1 =>
        (pySetL xs i e1).bind (fun xs2 => pyListUpdate upd is xs2)))

/-- One step of the `_iter` walker of `insert_query` on the segment `seg`,
where `upd` performs `_iter(keys, ref) if keys else value` on a chosen
element.  `none` models a raised exception.

Fidelity notes, traced from the source:
* a non-dict `reference` raises on every control path, hence `none`;
* in the query branch, malformed condition tuples raise (`ValueError` on
  unpacking — in the match scan when the array is nonempty, otherwise in
  `dict(conditions)`, which is always reached because an empty array has
  no matching element), hence `none`;
* `reference[key]` must be a list (otherwise `append`, `len`, item access
  or item assignment raises) and in the query branch every element must be
  a dict (`ele.get` raises otherwise);
* query with index: when fewer than `index + 1` elements match, append
  `index + 1 - len(indices)` copies of `dict(conditions)`, push `-1` onto
  `indices` and retarget `index = -1`, so the last appended copy is
  updated; otherwise update element `indices[index]`;
* query without index: when nothing matches, append one `dict(conditions)`
  and update it (via index `-1`); otherwise update every matching element;
* index without query: pad with empty dicts exactly like `insert_value`
  (this branch tests `is not None`, so it is live here);
* plain key: descend via `reference.get(key, {})` (also live here). -/
def iterIQStep (upd : JSON → Option JSON) (seg : Segment) :
    JSON → Option JSON
  | .obj fields =>
    (match seg.query with
     | some q =>
       match condPairs (parseConds q) with
       | none => none
       | some conds =>
         let fields1 :=
           if hasKey fields seg.key then fields
           else fields ++ [(seg.key, .arr [])]
         match lookupF fields1 seg.key with
         | some (.arr xs) =>
           if xs.all isObjB then
             let indices := queryIndices conds xs
             match seg.index with
             | some istr =>
               let index : Nat := digitsToNat istr
               if indices.length ≤ index then
                 let xs1 :=
                   xs ++ List.replicate (index + 1 - indices.length) (condObj conds)
                 let indices1 := indices ++ [(-1 : Int)]
                 (pyGetL indices1 (-1)).bind (fun tgt =>
                   (pyGetL xs1 tgt).bind (fun elem =>
                     (upd elem).bind (fun e1 =>
                       (pySetL xs1 tgt e1).map
                         (fun xs2 => JSON.obj (setKey fields1 seg.key (.arr xs2))))))
               else
                 (pyGetL indices (Int.ofNat index)).bind (fun tgt =>
                   (pyGetL xs tgt).bind (fun elem =>
                     (upd elem).bind (fun e1 =>
                       (pySetL xs tgt e1).map
                         (fun xs2 => JSON.obj (setKey fields1 seg.key (.arr xs2))))))
             | none =>
               let p :=
                 if indices.isEmpty then (xs ++ [condObj conds], [(-1 : Int)])
                 else (xs, indices)
               (pyListUpdate upd p.2 p.1).map
                 (fun xs2 => JSON.obj (setKey fields1 seg.key (.arr xs2)))
           else none
         | _ => none
     | none =>
       match seg.index with
       | some istr =>
         let idx : Nat := digitsToNat istr
         let fields1 :=
           if hasKey fields seg.key then fields
           else fields ++ [(seg.key, .arr [])]
         match lookupF fields1 seg.key with
         | some (.arr xs) =>
           let xs1 :=
             if xs.length ≤ idx then
               xs ++ List.replicate (idx + 1 - xs.length) (.obj [])
             else xs
           (upd (xs1.getD idx (.obj []))).map
             (fun newElem =>
               JSON.obj (setKey fields1 seg.key (.arr (xs1.set idx newElem))))
         | _ => none
       | none =>
         let refv := (lookupF fields seg.key).getD (.obj [])
         (upd refv).map (fun newv => JSON.obj (setKey fields seg.key newv)))
  | _ => none

/-- The `_iter` walker of `insert_query` on a nonempty segment list:
`upd` is the assignment (`value`) at the last segment, the recursive
descent otherwise. -/
def iterIQ (value : JSON) : Segment → List Segment → JSON → Option JSON
  | seg, [], ref => iterIQStep (fun _ => some value) seg ref
  | seg, s :: r, ref => iterIQStep (fun elem => iterIQ value s r elem) seg ref

/-- `JSONFactory.insert_query`: parse the path and walk.  An empty segment
list raises `IndexError` at `keys.pop(0)`, hence `none`. -/
def insert_query (path : String) (value : JSON) (record : JSON) : Option JSON :=
  match parse_path path with
  | [] => none
  | seg :: rest => iterIQ value seg rest record

/-! ### Specification-side functions for the query-insertion claims -/

/-- The positions (as naturals) of the array elements satisfying all
conditions — the specification-side counterpart of `queryIndices`. -/
def matchListN (conds : List (String × String)) (xs : List JSON) : List Nat :=
  xs.enum.filterMap (fun ie =>
    if satisfiesAll conds ie.2 then some ie.1 else none)

/-- What `_iter` does to a chosen element: assign `value` when no segments
remain, descend otherwise (`_iter(keys, ref) if keys else value`). -/
def descendUpd (value : JSON) : List Segment → JSON → Option JSON
  | [], _ => some value
  | s :: r, e => iterIQ value s r e

/-- Pointwise broadcast: update every element satisfying the conditions,
leave the others alone.  Each element is examined and updated
independently of the others. -/
def mapSat (upd : JSON → Option JSON) (conds : List (String × String)) :
    List JSON → Option (List JSON)
  | [] => some []
  | e :: es =>
    (if satisfiesAll conds e then upd e else some e).bind (fun e1 =>
      (mapSat upd conds es).map (fun es1 => e1 :: es1))

/-- The specification of query-only insertion into an array: if no element
satisfies the conditions, append exactly one new element pre-populated
with the condition fields (`dict(conditions)`) and update it; otherwise
update every satisfying element identically. -/
def broadcastSpec (upd : JSON → Option JSON) (conds : List (String × String))
    (xs : List JSON) : Option (List JSON) :=
  if xs.all (fun e => !satisfiesAll conds e) then
    (upd (condObj conds)).map (fun e1 => xs ++ [e1])
  else mapSat upd conds xs

/-- The broadcast loop with natural-number indices (the specification-side
counterpart of `pyListUpdate`). -/
def natListUpdate (upd : JSON → Option JSON) :
    List Nat → List JSON → Option (List JSON)
  | [], xs => some xs
  | m :: ms, xs =>
    (xs[m]?).bind (fun e =>
      (upd e).bind (fun e1 => natListUpdate upd ms (xs.set m e1)))

/-! ### Trace model of the flattener (for the duplicate-path claim)

`flatten` builds its path strings by rewriting the *last* key when it
descends into an array.  To reason about duplicate paths we re-express the
traversal over *items*: an item is an object key together with the list of
array indices appended to it, rendered as `key[i1][i2]...`; `trv` mirrors
`iter_child` exactly but keeps the items structured instead of flattening
them into strings. -/

/-- Keys that cannot collide with the `[idx]` suffixes the flattener
appends: no `.` (the path separator) and no `[`. -/
def goodKeyB (s : String) : Bool :=
  s.data.all (fun c => !(c = '.') && !(c = '['))

/-- Pairwise-distinct key lists (Python dicts cannot repeat a key). -/
def nodupKeysB : List String → Bool
  | [] => true
  | k :: rest => !(rest.any (fun x => x = k)) && nodupKeysB rest

mutual

/-- Well-formed documents for the amended duplicate-path claim: every
object has pairwise-distinct keys (true of any Python dict) avoiding `.`
and `[`. -/
def goodDoc : JSON → Bool
  | .obj fields => nodupKeysB (fields.map Prod.fst) && goodFields fields
  | .arr xs => goodElems xs
  | _ => true

/-- `goodDoc` over an object's fields. -/
def goodFields : List (String × JSON) → Bool
  | [] => true
  | (k, v) :: rest => goodKeyB k && goodDoc v && goodFields rest

/-- `goodDoc` over an array's elements. -/
def goodElems : List JSON → Bool
  | [] => true
  | v :: rest => goodDoc v && goodElems rest

end

/-- Render a list of array indices as `[i1][i2]...`. -/
def brackets : List Nat → List Char
  | [] => []
  | i :: is => '[' :: ((natToStr i).data ++ (']' :: brackets is))

/-- Render one item `(key, indices)` as the characters of
`key[i1][i2]...`. -/
def renderItem (it : String × List Nat) : List Char :=
  it.1.data ++ brackets it.2

/-- `renderItem` as a string — the key the flattener actually carries. -/
def renderStr (it : String × List Nat) : String :=
  String.mk (renderItem it)

mutual

/-- The traversal of `iter_child` at the item level: objects append a new
item, arrays append an index to the last item, leaves emit the item
trace. -/
def trv : JSON → List (String × List Nat) →
    List (List (String × List Nat) × JSON)
  | .obj fields, items => trvFields fields items
  | .arr xs, items => trvElems xs 0 items
  | v, items => [(items, v)]

/-- `trv` over an object's fields. -/
def trvFields : List (String × JSON) → List (String × List Nat) →
    List (List (String × List Nat) × JSON)
  | [], _ => []
  | (k, v) :: rest, items => trv v (items ++ [(k, [])]) ++ trvFields rest items

/-- `trv` over an array's elements, with the `enumerate` counter. -/
def trvElems : List JSON → Nat → List (String × List Nat) →
    List (List (String × List Nat) × JSON)
  | [], _, _ => []
  | v :: rest, idx, items =>
    trv v (items.dropLast ++
      [((items.getLastD ("", [])).1,
        (items.getLastD ("", [])).2 ++ [idx])]) ++
    trvElems rest (idx + 1) items

end

set_option linter.unusedVariables false in
/-- The decimal digits of `n` (empty for 0), most significant first: the
specification-side form of `natToStrGo`. -/
def natDigits (n : Nat) : List Char :=
  if hz : n = 0 then [] else natDigits (n / 10) ++ [digitChar (n % 10)]
decreasing_by exact Nat.div_lt_self (Nat.pos_of_ne_zero hz) (by omega)

/-! ### `JSONFactory.get_projection` -/

/-- The test `'?' in path` routing a pair to the query phase. -/
def hasQuestion (p : String) : Bool :=
  p.data.contains '?'

/-- The non-query insertion loop: run `insert_value` on each pair in turn.
The Python code discards the return value and relies on in-place mutation,
so a `None` return (root-only path) leaves the record unchanged, a raised
exception aborts the projection. -/
def phase1 : List (String × JSON) → JSON → Option JSON
  | [], r => some r
  | pv :: rest, r =>
    match insert_value pv.1 pv.2 r with
    | .exn => none
    | .noneRet => phase1 rest r
    | .val r1 => phase1 rest r1

/-- The query insertion loop: run `insert_query` on each pair in turn. -/
def phase2 : List (String × JSON) → JSON → Option JSON
  | [], r => some r
  | pv :: rest, r =>
    match insert_query pv.1 pv.2 r with
    | none => none
    | some r1 => phase2 rest r1

/-- The single pass of `get_projection`: pairs whose target contains `?`
are deferred (appended to `queries`), the others inserted immediately;
the deferred pairs are processed afterwards. -/
def projGo : List (String × JSON) → List (String × JSON) → JSON → Option JSON
  | [], queries, r => phase2 queries r
  | pv :: rest, queries, r =>
    if hasQuestion pv.1 then projGo rest (queries ++ [pv]) r
    else
      match insert_value pv.1 pv.2 r with
      | .exn => none
      | .noneRet => projGo rest queries r
      | .val r1 => projGo rest queries r1

/-- `JSONFactory.get_projection` over the pairs yielded by the manifest. -/
def get_projection (m : JSONManifest) : Option JSON :=
  projGo (manifestPairs m) [] (.obj [])

theorem projGo_decomp (pairs : List (String × JSON)) :
    ∀ (queries : List (String × JSON)) (r : JSON),
      projGo pairs queries r =
        (phase1 (pairs.filter (fun pv => !hasQuestion pv.1)) r).bind
          (phase2 (queries ++ pairs.filter (fun pv => hasQuestion pv.1))) := by
  induction pairs with
  | nil => intro queries r; simp [projGo, phase1]
  | cons pv rest ih =>
    intro queries r
    by_cases hq : hasQuestion pv.1
    · simp [projGo, hq, phase1, ih]
    · simp only [projGo, hq, if_neg, Bool.not_eq_true]
      simp only [List.filter_cons, hq, Bool.not_false, Bool.not_true, if_pos,
        if_neg]
      simp only [phase1]
      cases insert_value pv.1 pv.2 r with
      | exn => simp
      | noneRet => simp [ih]
      | val r1 => simp [ih]

/-! ### Claim theorems: C1, C2, C5, C10 -/

/-- **C1** (code_bug evidence).  The round-trip property fails on the
document `{"a": 5}`: `_get_index` returns the truthy tuple `(None, None)`
for the plain key `a`, so `insert_value` raises `TypeError` at
`rlen <= idx` instead of creating the entry, and rebuilding the flattened
pairs of `{"a": 5}` into an empty record fails. -/
theorem rebuild_plain_key_raises :
    rebuildFromFlat (flatten (.obj [("a", .num 5)])) = none ∧
    flatten (.obj [("a", .num 5)]) = [("$.a", .num 5)] ∧
    insert_value "$.a" (.num 5) (.obj []) = .exn := by decide

/-- **C10**.  `insert_value` with the root-only path reduces the key list
to `[]` after stripping the leading `$`, so the walker's bare `return`
hands back `None`: the caller receives no record, and the input record is
untouched (the walker returns before reaching any assignment). -/
theorem insert_value_root_path_returns_none (v r : JSON) :
    insert_value "$" v r = .noneRet := rfl

/-- **C2**.  `get_projection` is two-phase: it equals running
`insert_value` over the non-`?` pairs first and `insert_query` over the
`?` pairs second; consequently two manifests whose pair streams agree on
the query sublist and on the non-query sublist (regardless of where the
query rules sit in the rule list) project to the same document. -/
theorem get_projection_two_phase :
    (∀ m : JSONManifest,
      get_projection m =
        (phase1 ((manifestPairs m).filter (fun pv => !hasQuestion pv.1))
            (JSON.obj [])).bind
          (phase2 ((manifestPairs m).filter (fun pv => hasQuestion pv.1)))) ∧
    (∀ m1 m2 : JSONManifest,
      (manifestPairs m1).filter (fun pv => hasQuestion pv.1) =
        (manifestPairs m2).filter (fun pv => hasQuestion pv.1) →
      (manifestPairs m1).filter (fun pv => !hasQuestion pv.1) =
        (manifestPairs m2).filter (fun pv => !hasQuestion pv.1) →
      get_projection m1 = get_projection m2) := by
  constructor
  · intro m
    simpa using projGo_decomp (manifestPairs m) [] (.obj [])
  · intro m1 m2 hq hnq
    show projGo _ [] _ = projGo _ [] _
    rw [projGo_decomp, projGo_decomp, hq, hnq]

/-- **C2 witness**: swapping a query rule past a plain rule leaves both
filtered pair streams, and hence the projection, unchanged. -/
theorem get_projection_two_phase_witness :
    get_projection
        { data := .obj [("x", .num 5), ("y", .str "a")],
          rules :=
            [{ source := "$.x", target := "$.items[?(@.type==\"a\")].val" },
             { source := "$.y", target := "$.name" }] } =
      get_projection
        { data := .obj [("x", .num 5), ("y", .str "a")],
          rules :=
            [{ source := "$.y", target := "$.name" },
             { source := "$.x", target := "$.items[?(@.type==\"a\")].val" }] } :=
  get_projection_two_phase.2 _ _ (by decide) (by decide)

theorem lookupF_eq_none_iff (fs : List (String × JSON)) (k : String) :
    lookupF fs k = none ↔ hasKey fs k = false := by
  induction fs with
  | nil => simp [lookupF, hasKey]
  | cons f fs ih =>
    by_cases h : f.1 = k
    · obtain ⟨a, b⟩ := f
      simp_all [lookupF, hasKey]
    · obtain ⟨a, b⟩ := f
      simp_all [lookupF, hasKey]

theorem lookupF_append_right (fs gs : List (String × JSON)) (k : String)
    (h : lookupF fs k = none) : lookupF (fs ++ gs) k = lookupF gs k := by
  induction fs with
  | nil => simp
  | cons f fs ih =>
    obtain ⟨a, b⟩ := f
    by_cases hak : a = k <;> simp_all [lookupF]

theorem setKey_of_absent (fs : List (String × JSON)) (k : String) (v : JSON)
    (h : hasKey fs k = false) : setKey fs k v = fs ++ [(k, v)] := by
  simp [setKey, h]

/-! ### Claim C6: exact matching in manifest iteration -/

theorem hasKey_iff_mem (fs : List (String × JSON)) (k : String) :
    hasKey fs k = true ↔ k ∈ fs.map Prod.fst := by
  simp only [hasKey, List.any_eq_true, List.mem_map]
  constructor
  · rintro ⟨f, hf, hfk⟩
    exact ⟨f, hf, by simpa using hfk.symm⟩
  · rintro ⟨f, hf, hfk⟩
    exact ⟨f, hf, by simp [hfk]⟩

theorem keys_setKey (fs : List (String × JSON)) (k : String) (v : JSON) :
    (setKey fs k v).map Prod.fst =
      if hasKey fs k then fs.map Prod.fst else fs.map Prod.fst ++ [k] := by
  by_cases h : hasKey fs k
  · simp only [setKey, h, if_pos, List.map_map]
    apply List.map_congr_left
    intro f _
    by_cases hfk : f.1 = k <;> simp [hfk]
  · simp [setKey, h]

theorem nodup_keys_setKey (fs : List (String × JSON)) (k : String) (v : JSON)
    (h : (fs.map Prod.fst).Nodup) : ((setKey fs k v).map Prod.fst).Nodup := by
  rw [keys_setKey]
  by_cases hk : hasKey fs k
  · simpa [hk] using h
  · have : ¬ k ∈ fs.map Prod.fst := fun hmem =>
      hk ((hasKey_iff_mem fs k).mpr hmem)
    simp [hk, List.nodup_append, h, this]

theorem nodup_keys_pyDictJ (l : List (String × JSON)) :
    ((pyDictJ l).map Prod.fst).Nodup := by
  have main : ∀ (l : List (String × JSON)) (acc : List (String × JSON)),
      (acc.map Prod.fst).Nodup →
      ((l.foldl (fun acc p => setKey acc p.1 p.2) acc).map Prod.fst).Nodup := by
    intro l
    induction l with
    | nil => intro acc h; simpa using h
    | cons p rest ih =>
      intro acc h
      exact ih (setKey acc p.1 p.2) (nodup_keys_setKey acc p.1 p.2 h)
  exact main l [] (by simp)

theorem filterMap_absent (fd : List (String × JSON)) (s t : String)
    (h : lookupF fd s = none) :
    fd.filterMap (fun pv => if s = pv.1 then some (t, pv.2) else none) = [] := by
  induction fd with
  | nil => rfl
  | cons f fs ih =>
    obtain ⟨a, b⟩ := f
    simp only [lookupF] at h
    by_cases has : a = s
    · rw [if_pos has] at h
      exact Option.noConfusion h
    · rw [if_neg has] at h
      simp only [List.filterMap_cons]
      rw [if_neg (fun hsa => has hsa.symm)]
      exact ih h

theorem filterMap_lookup (fd : List (String × JSON)) (s t : String)
    (hnd : (fd.map Prod.fst).Nodup) :
    fd.filterMap (fun pv => if s = pv.1 then some (t, pv.2) else none) =
      (match lookupF fd s with
       | some v => [(t, v)]
       | none => []) := by
  induction fd with
  | nil => rfl
  | cons f fs ih =>
    obtain ⟨a, b⟩ := f
    simp only [List.map_cons, List.nodup_cons] at hnd
    by_cases has : a = s
    · subst has
      have habs : lookupF fs a = none := by
        rw [lookupF_eq_none_iff]
        rcases h : hasKey fs a with _ | _
        · rfl
        · exact absurd ((hasKey_iff_mem fs a).mp h) hnd.1
      simp [List.filterMap_cons, lookupF, filterMap_absent fs a t habs]
    · simp only [List.filterMap_cons, lookupF]
      rw [if_neg (fun hsa => has hsa.symm), if_neg has]
      exact ih hnd.2

theorem flatMap_congr_fn {α β : Type} (l : List α) (f g : α → List β)
    (h : ∀ a ∈ l, f a = g a) : l.flatMap f = l.flatMap g := by
  induction l with
  | nil => rfl
  | cons a l ih =>
    simp only [List.flatMap_cons, h a (by simp)]
    rw [ih (fun x hx => h x (by simp [hx]))]

/-- **C6**.  Manifest iteration is exact matching: every rule contributes
`(target, value at source)` when its `source` literally equals a key of
the flattened map (string equality, no normalization), and nothing
otherwise; each rule is processed independently, so duplicated sources
each yield their own pair. -/
theorem manifest_iter_exact_matching (m : JSONManifest) :
    manifestPairs m =
      m.rules.flatMap (fun r =>
        match lookupF (manifestFData m) r.source with
        | some v => [(r.target, v)]
        | none => []) := by
  apply flatMap_congr_fn
  intro r _
  exact filterMap_lookup (manifestFData m) r.source r.target
    (nodup_keys_pyDictJ (flatten m.data))

/-! ### Claim C7: malformed paths are silently re-interpreted, not errors -/

/-- **C7 counterexample**.  The target path
`$.items[?(@.type="a")].val` is malformed (a single `=` where the grammar
requires `==`), yet processing does not fail: `findall` silently skips the
malformed qualifier, even matching `.type` *inside* the query text, and
`insert_query` happily builds `{items: {type: {val: 7}}}`.  No parse error
is surfaced, and a mangled fragment of the malformed path is applied. -/
theorem malformed_path_applied_silently :
    parse_path "$.items[?(@.type=\"a\")].val" =
      [{ key := "items", index := none, query := none },
       { key := "type", index := none, query := none },
       { key := "val", index := none, query := none }] ∧
    insert_query "$.items[?(@.type=\"a\")].val" (.num 7) (.obj []) =
      some (.obj [("items", .obj [("type", .obj [("val", .num 7)])])]) := by
  decide

/-- **C7 amended**.  Parsing is not all-or-nothing and failures are not
surfaced: `parse_path` silently extracts whatever grammar-conforming
`.key` fragments occur anywhere in the path (even inside malformed
qualifier text) and `insert_query` applies them as plain descents; the
only failing case is a path yielding no segments at all, where
`insert_query` raises (`IndexError` from `keys.pop(0)` on an empty list).
Illustrated below on the malformed path `$.items[?(@.type='a')].val`
written with double quotes. -/
theorem parse_path_partial_recovery :
    (∀ (p : String) (v r : JSON),
      parse_path p = [] → insert_query p v r = none) ∧
    (parse_path "$.items[?(@.type=\"x\")].id" =
      [{ key := "items", index := none, query := none },
       { key := "type", index := none, query := none },
       { key := "id", index := none, query := none }] ∧
     insert_query "$.items[?(@.type=\"x\")].id" (.num 3) (.obj []) =
      some (.obj [("items", .obj [("type", .obj [("id", .num 3)])])])) := by
  refine ⟨?_, by decide, by decide⟩
  intro p v r h
  simp [insert_query, h]

/-- **C7 amended witness**: the no-segment case at the concrete path `$`
(no `.key` fragment at all), which raises rather than returning a record. -/
theorem parse_path_partial_recovery_witness :
    parse_path "$" = [] ∧ insert_query "$" (.num 1) (.obj []) = none :=
  ⟨by decide, parse_path_partial_recovery.1 "$" (.num 1) (.obj []) (by decide)⟩

theorem hasKey_false_forall (fs : List (String × JSON)) (k : String)
    (h : hasKey fs k = false) : ∀ f ∈ fs, ¬(f.1 = k) := by
  intro f hf hfk
  have ht : hasKey fs k = true := by
    simp only [hasKey, List.any_eq_true]
    exact ⟨f, hf, by simp [hfk]⟩
  rw [ht] at h
  exact Bool.noConfusion h

theorem map_setKey_id (fs : List (String × JSON)) (k : String) (v : JSON)
    (h : ∀ f ∈ fs, ¬(f.1 = k)) :
    fs.map (fun f => if f.1 = k then (k, v) else f) = fs := by
  induction fs with
  | nil => rfl
  | cons f fs ih =>
    simp only [List.map_cons, if_neg (h f (by simp)),
      ih (fun g hg => h g (by simp [hg]))]

theorem setKey_append_of_absent (fs : List (String × JSON)) (k : String)
    (v w : JSON) (h : hasKey fs k = false) :
    setKey (fs ++ [(k, w)]) k v = fs ++ [(k, v)] := by
  have hk : hasKey (fs ++ [(k, w)]) k = true := by
    simp [hasKey, List.any_eq_true]
  simp only [setKey, hk, if_pos, List.map_append,
    map_setKey_id fs k v (hasKey_false_forall fs k h)]
  simp

theorem padded_set_props (xs : List JSON) (i : Nat) (v : JSON) :
    ((if xs.length ≤ i then
        xs ++ List.replicate (i + 1 - xs.length) (JSON.obj [])
      else xs).set i v).length = max xs.length (i + 1) ∧
    ((if xs.length ≤ i then
        xs ++ List.replicate (i + 1 - xs.length) (JSON.obj [])
      else xs).set i v)[i]? = some v ∧
    (∀ j, j < xs.length → j ≠ i →
      ((if xs.length ≤ i then
          xs ++ List.replicate (i + 1 - xs.length) (JSON.obj [])
        else xs).set i v)[j]? = xs[j]?) ∧
    (∀ j, xs.length ≤ j →
      j < ((if xs.length ≤ i then
              xs ++ List.replicate (i + 1 - xs.length) (JSON.obj [])
            else xs).set i v).length → j ≠ i →
      ((if xs.length ≤ i then
          xs ++ List.replicate (i + 1 - xs.length) (JSON.obj [])
        else xs).set i v)[j]? = some (JSON.obj [])) := by
  by_cases hle : xs.length ≤ i
  · simp only [hle, if_pos]
    have hlen : (xs ++ List.replicate (i + 1 - xs.length) (JSON.obj [])).length
        = i + 1 := by simp; omega
    refine ⟨by simp [hlen]; omega, ?_, ?_, ?_⟩
    · exact List.getElem?_set_eq_of_lt v (by omega)
    · intro j hj hji
      rw [List.getElem?_set_ne hji.symm]
      exact List.getElem?_append_left hj
    · intro j hj1 hj2 hji
      rw [List.getElem?_set_ne hji.symm,
        List.getElem?_append_right hj1]
      simp only [List.length_set, hlen] at hj2
      simp [List.getElem?_replicate]
      omega
  · simp only [hle, if_neg, not_false_iff]
    have hi : i < xs.length := by omega
    refine ⟨by simp; omega, List.getElem?_set_eq_of_lt v hi, ?_, ?_⟩
    · intro j _ hji
      exact List.getElem?_set_ne hji.symm
    · intro j hj1 hj2 _
      simp only [List.length_set] at hj2
      omega

/-- **C5**.  Index padding: inserting at `"$.items[3]"` into an empty
record yields an `items` array of length 4 with empty objects at indices
0–2 and the value at index 3; and in general, for a single-segment path
whose segment carries a literal index `i`, `insert_value` grows the array
at that key to `max(existing length, i + 1)` elements, keeps existing
elements (other than position `i`), fills any gap with empty objects, and
stores the value at position `i`. -/
theorem insert_value_index_padding :
    (insert_value "$.items[3]" (.str "w") (.obj []) =
      .val (.obj [("items", .arr [.obj [], .obj [], .obj [], .str "w"])])) ∧
    ∀ (path seg k : String) (i : Nat) (v : JSON)
      (fields : List (String × JSON)) (xs : List JSON),
      pySplit '.' path = ["$", seg] →
      getIndexF seg = some (k, i) →
      (lookupF fields k = none ∧ xs = [] ∨ lookupF fields k = some (.arr xs)) →
      ∃ ys : List JSON,
        insert_value path v (.obj fields) =
          .val (.obj (setKey fields k (.arr ys))) ∧
        ys.length = max xs.length (i + 1) ∧
        ys[i]? = some v ∧
        (∀ j, j < xs.length → j ≠ i → ys[j]? = xs[j]?) ∧
        (∀ j, xs.length ≤ j → j < ys.length → j ≠ i →
          ys[j]? = some (JSON.obj [])) := by
  refine ⟨by decide, ?_⟩
  intro path seg k i v fields xs hsplit hidx hlook
  have hkeys :
      insert_value path v (.obj fields) = match iterIV v seg [] (.obj fields) with
        | some r => .val r
        | none => .exn := by
    simp [insert_value, hsplit]
  rcases hlook with ⟨hnone, hxs⟩ | hsome
  · subst hxs
    have hk : hasKey fields k = false := (lookupF_eq_none_iff fields k).mp hnone
    have hlook1 : lookupF (fields ++ [(k, JSON.arr [])]) k = some (.arr []) := by
      rw [lookupF_append_right fields _ k hnone]
      simp [lookupF]
    have hstep : iterIV v seg [] (.obj fields) =
        some (.obj (setKey (fields ++ [(k, JSON.arr [])]) k
          (.arr ((if ([] : List JSON).length ≤ i then
                    ([] : List JSON) ++
                      List.replicate (i + 1 - ([] : List JSON).length) (JSON.obj [])
                  else ([] : List JSON)).set i v)))) := by
      simp [iterIV, hidx, hk, hlook1]
    have hprops := padded_set_props [] i v
    refine ⟨_, ?_, hprops.1, hprops.2.1, hprops.2.2.1, hprops.2.2.2⟩
    rw [hkeys, hstep, setKey_append_of_absent fields k _ _ hk,
      setKey_of_absent fields k _ hk]
  · have hk : hasKey fields k = true := by
      rcases h : hasKey fields k with _ | _
      · rw [(lookupF_eq_none_iff fields k).mpr h] at hsome
        exact Option.noConfusion hsome
      · rfl
    have hstep : iterIV v seg [] (.obj fields) =
        some (.obj (setKey fields k (.arr
          ((if xs.length ≤ i then
              xs ++ List.replicate (i + 1 - xs.length) (JSON.obj [])
            else xs).set i v)))) := by
      simp [iterIV, hidx, hk, hsome]
    have hprops := padded_set_props xs i v
    exact ⟨_, by rw [hkeys, hstep], hprops.1, hprops.2.1, hprops.2.2.1,
      hprops.2.2.2⟩

/-- **C5 witness**: the general padding statement applied at the concrete
path `"$.items[3]"` of the claim, on the empty record. -/
theorem insert_value_index_padding_witness :
    ∃ ys : List JSON,
      insert_value "$.items[3]" (.bool true) (.obj []) =
        .val (.obj (setKey [] "items" (.arr ys))) ∧
      ys.length = max ([] : List JSON).length (3 + 1) ∧
      ys[3]? = some (.bool true) ∧
      (∀ j, j < ([] : List JSON).length → j ≠ 3 → ys[j]? = ([] : List JSON)[j]?) ∧
      (∀ j, ([] : List JSON).length ≤ j → j < ys.length → j ≠ 3 →
        ys[j]? = some (JSON.obj [])) :=
  insert_value_index_padding.2 "$.items[3]" "items[3]" "items" 3 (.bool true)
    [] [] (by decide) (by decide) (Or.inl ⟨by decide, rfl⟩)


/-! ### Claims C3 and C4: query insertion -/

theorem hasKey_of_lookup (fs : List (String × JSON)) (k : String) (v : JSON)
    (h : lookupF fs k = some v) : hasKey fs k = true := by
  rcases hh : hasKey fs k with _ | _
  · rw [(lookupF_eq_none_iff fs k).mpr hh] at h
    exact Option.noConfusion h
  · rfl

theorem iterIQ_eq_step (value : JSON) (seg : Segment) (rest : List Segment)
    (ref : JSON) :
    iterIQ value seg rest ref = iterIQStep (descendUpd value rest) seg ref := by
  cases rest <;> rfl

theorem queryIndices_eq (conds : List (String × String)) (xs : List JSON) :
    queryIndices conds xs = (matchListN conds xs).map Int.ofNat := by
  unfold queryIndices matchListN
  induction xs.enum with
  | nil => rfl
  | cons ie l ih =>
    rw [List.filterMap_cons, List.filterMap_cons]
    by_cases hs : satisfiesAll conds ie.2
    · rw [if_pos hs, if_pos hs]
      exact congrArg (List.cons (Int.ofNat ie.1)) ih
    · rw [if_neg hs, if_neg hs]
      exact ih

theorem enumFrom_filterMap_succ (conds : List (String × String))
    (es : List JSON) :
    ∀ n : Nat,
      (List.enumFrom (n + 1) es).filterMap
        (fun ie => if satisfiesAll conds ie.2 then some ie.1 else none) =
      ((List.enumFrom n es).filterMap
        (fun ie => if satisfiesAll conds ie.2 then some ie.1 else none)).map
          (fun j => j + 1) := by
  induction es with
  | nil => intro n; rfl
  | cons e es ih =>
    intro n
    show List.filterMap _ ((n + 1, e) :: List.enumFrom (n + 2) es) = _
    conv_rhs =>
      rw [show List.enumFrom n (e :: es) = (n, e) :: List.enumFrom (n + 1) es
        from rfl]
    rw [List.filterMap_cons, List.filterMap_cons]
    by_cases hs : satisfiesAll conds e
    · simp only [hs, if_pos]
      rw [ih (n + 1)]
      simp
    · simp only [hs]
      rw [ih (n + 1)]
      simp

theorem matchListN_cons (conds : List (String × String)) (e : JSON)
    (es : List JSON) :
    matchListN conds (e :: es) =
      (if satisfiesAll conds e then [0] else []) ++
        (matchListN conds es).map (fun j => j + 1) := by
  show List.filterMap _ ((0, e) :: List.enumFrom 1 es) = _
  rw [List.filterMap_cons, enumFrom_filterMap_succ conds es 0]
  by_cases hs : satisfiesAll conds e <;> simp [hs, matchListN, List.enum]

theorem matchListN_mem (conds : List (String × String)) :
    ∀ xs : List JSON, ∀ j ∈ matchListN conds xs,
      j < xs.length ∧ satisfiesAll conds (xs.getD j (.obj [])) = true := by
  intro xs
  induction xs with
  | nil => intro j hj; simp [matchListN, List.enum] at hj
  | cons e es ih =>
    intro j hj
    rw [matchListN_cons] at hj
    rcases List.mem_append.mp hj with hj1 | hj2
    · by_cases hs : satisfiesAll conds e
      · simp only [hs, if_pos, List.mem_singleton] at hj1
        subst hj1
        exact ⟨Nat.succ_pos _, by simpa [List.getD_cons_zero] using hs⟩
      · simp [hs] at hj1
    · obtain ⟨j1, hj1, rfl⟩ := List.mem_map.mp hj2
      obtain ⟨h1, h2⟩ := ih j1 hj1
      exact ⟨by simp only [List.length_cons]; omega,
        by simpa [List.getD_cons_succ] using h2⟩

theorem matchListN_nil_iff (conds : List (String × String)) (xs : List JSON) :
    matchListN conds xs = [] ↔
      xs.all (fun e => !satisfiesAll conds e) = true := by
  induction xs with
  | nil => simp [matchListN, List.enum]
  | cons e es ih =>
    rw [matchListN_cons]
    by_cases hs : satisfiesAll conds e <;> simp [hs, ih]

theorem natListUpdate_shift (upd : JSON → Option JSON) (ms : List Nat) :
    ∀ (y : JSON) (ys : List JSON),
      natListUpdate upd (ms.map (fun m => m + 1)) (y :: ys) =
        (natListUpdate upd ms ys).map (fun ys1 => y :: ys1) := by
  induction ms with
  | nil => intro y ys; rfl
  | cons m ms ih =>
    intro y ys
    show natListUpdate upd ((m + 1) :: ms.map _) (y :: ys) = _
    simp only [natListUpdate, List.getElem?_cons_succ]
    cases hys : ys[m]? with
    | none => rfl
    | some e =>
      simp only [Option.some_bind]
      cases he : upd e with
      | none => rfl
      | some e1 =>
        simp only [Option.some_bind, List.set_cons_succ]
        exact ih y (ys.set m e1)

theorem pyGetL_ofNat {α : Type} (l : List α) (m : Nat) :
    pyGetL l (Int.ofNat m) = l[m]? := by
  show pyGetL l ((m : Int)) = l[m]?
  simp only [pyGetL]
  rw [if_neg (show ¬((m : Int) < 0) by omega)]
  rw [if_neg (show ¬((m : Int) < 0) by omega)]
  simp [List.get?_eq_getElem?]

theorem pySetL_ofNat {α : Type} (l : List α) (m : Nat) (x : α)
    (h : m < l.length) : pySetL l (Int.ofNat m) x = some (l.set m x) := by
  show pySetL l ((m : Int)) x = _
  simp only [pySetL]
  rw [if_neg (show ¬((m : Int) < 0) by omega)]
  rw [if_neg (show ¬((m : Int) < 0 ∨ (l.length : Int) ≤ (m : Int)) by omega)]
  simp

theorem pyListUpdate_natCast (upd : JSON → Option JSON) (ms : List Nat) :
    ∀ xs : List JSON,
      pyListUpdate upd (ms.map Int.ofNat) xs = natListUpdate upd ms xs := by
  induction ms with
  | nil => intro xs; rfl
  | cons m ms ih =>
    intro xs
    show pyListUpdate upd (Int.ofNat m :: ms.map Int.ofNat) xs = _
    simp only [pyListUpdate, natListUpdate, pyGetL_ofNat]
    cases hx : xs[m]? with
    | none => rfl
    | some e =>
      have hm : m < xs.length := (List.getElem?_eq_some.mp hx).1
      simp only [Option.some_bind]
      cases upd e with
      | none => rfl
      | some e1 =>
        simp only [Option.some_bind, pySetL_ofNat xs m e1 hm]
        exact ih (xs.set m e1)

theorem natListUpdate_matchList (upd : JSON → Option JSON)
    (conds : List (String × String)) :
    ∀ xs : List JSON,
      natListUpdate upd (matchListN conds xs) xs = mapSat upd conds xs := by
  intro xs
  induction xs with
  | nil => rfl
  | cons e es ih =>
    rw [matchListN_cons]
    by_cases hs : satisfiesAll conds e
    · rw [if_pos hs, List.singleton_append]
      show natListUpdate upd (0 :: _) (e :: es) = _
      simp only [natListUpdate, List.getElem?_cons_zero, mapSat, if_pos hs,
        Option.some_bind]
      cases upd e with
      | none => rfl
      | some e1 =>
        simp only [Option.some_bind, List.set_cons_zero]
        rw [natListUpdate_shift upd _ e1 es, ih]
    · rw [if_neg hs, List.nil_append, natListUpdate_shift upd _ e es, ih]
      simp [mapSat, hs]

theorem pyGetL_append_last (xs : List JSON) (c : JSON) :
    pyGetL (xs ++ [c]) (-1) = some c := by
  have hj : (if (-1 : Int) < 0 then ((xs ++ [c]).length : Int) + (-1)
      else (-1 : Int)) = (xs.length : Int) := by
    rw [if_pos (by norm_num)]
    simp only [List.length_append, List.length_cons, List.length_nil]
    push_cast
    omega
  simp only [pyGetL, hj]
  rw [if_neg (show ¬((xs.length : Int) < 0) by omega)]
  simp only [Int.toNat_natCast, List.get?_eq_getElem?]
  rw [List.getElem?_append_right (Nat.le_refl _)]
  simp

theorem pySetL_append_last (xs : List JSON) (c e1 : JSON) :
    pySetL (xs ++ [c]) (-1) e1 = some (xs ++ [e1]) := by
  have hj : (if (-1 : Int) < 0 then ((xs ++ [c]).length : Int) + (-1)
      else (-1 : Int)) = (xs.length : Int) := by
    rw [if_pos (by norm_num)]
    simp only [List.length_append, List.length_cons, List.length_nil]
    push_cast
    omega
  have hc : ¬((xs.length : Int) < 0 ∨
      ((xs ++ [c]).length : Int) ≤ (xs.length : Int)) := by
    simp only [List.length_append, List.length_cons, List.length_nil]
    push_cast
    omega
  simp only [pySetL, hj]
  rw [if_neg hc]
  simp only [Int.toNat_natCast]
  rw [List.set_append_right _ _ (Nat.le_refl _)]
  simp

/-- **C3**.  Query broadcast: on a record whose entry at the segment's key
is an array of objects, a first segment carrying a query but no literal
index makes `insert_query` behave as `broadcastSpec`: when no element
satisfies all the equality conditions it appends exactly one new element
pre-populated with the condition fields (`condObj`, i.e.
`dict(conditions)`) and applies the assignment/descent to it; otherwise it
applies the assignment/descent (`descendUpd`) to every element satisfying
the conditions, each updated identically and independently (`mapSat`). -/
theorem insert_query_broadcast (p k q : String) (rest : List Segment)
    (v : JSON) (fields : List (String × JSON)) (xs : List JSON)
    (conds : List (String × String))
    (hp : parse_path p = { key := k, index := none, query := some q } :: rest)
    (hc : condPairs (parseConds q) = some conds)
    (hl : lookupF fields k = some (.arr xs))
    (ho : ∀ e ∈ xs, isObjB e = true) :
    insert_query p v (.obj fields) =
      (broadcastSpec (descendUpd v rest) conds xs).map
        (fun ys => JSON.obj (setKey fields k (.arr ys))) := by
  have hk : hasKey fields k = true := hasKey_of_lookup fields k _ hl
  have hall : xs.all isObjB = true := by
    rw [List.all_eq_true]
    exact ho
  by_cases hemp : (queryIndices conds xs).isEmpty
  · have h0 : queryIndices conds xs = [] := List.isEmpty_iff.mp hemp
    have hml : matchListN conds xs = [] := by
      rw [queryIndices_eq] at h0
      exact List.map_eq_nil_iff.mp h0
    have hallnot : xs.all (fun e => !satisfiesAll conds e) = true :=
      (matchListN_nil_iff conds xs).mp hml
    simp only [insert_query, hp, iterIQ_eq_step, iterIQStep, hc, hk, hl, hall,
      hemp, if_pos, if_true, broadcastSpec, hallnot]
    simp only [pyListUpdate, pyGetL_append_last, Option.some_bind,
      pySetL_append_last]
    cases hupd : descendUpd v rest (condObj conds) with
    | none => rfl
    | some e1 => simp [pyListUpdate]
  · have hne : queryIndices conds xs ≠ [] := by
      intro h
      rw [h] at hemp
      exact hemp rfl
    have hmlne : matchListN conds xs ≠ [] := by
      intro h
      apply hne
      rw [queryIndices_eq, h]
      rfl
    have hallnot : ¬(xs.all (fun e => !satisfiesAll conds e) = true) :=
      fun h => hmlne ((matchListN_nil_iff conds xs).mpr h)
    have hemp' : (queryIndices conds xs).isEmpty = false := by
      rcases h : (queryIndices conds xs).isEmpty with _ | _
      · rfl
      · exact absurd h hemp
    simp only [insert_query, hp, iterIQ_eq_step, iterIQStep, hc, hk, hl, hall,
      hemp', if_true, Bool.false_eq_true, if_false, broadcastSpec, hallnot]
    rw [queryIndices_eq, pyListUpdate_natCast, natListUpdate_matchList]

/-- **C3 witness**: the broadcast theorem at the claim's concrete input:
`tags: [{type:"a",val:1},{type:"a",val:2}]` with the query
`?(@.type=="a")` and no index updates both elements. -/
theorem insert_query_broadcast_witness :
    insert_query "$.tags[?(@.type==\"a\")].val" (.num 9)
        (.obj [("tags", .arr
          [.obj [("type", .str "a"), ("val", .num 1)],
           .obj [("type", .str "a"), ("val", .num 2)]])]) =
      (broadcastSpec
          (descendUpd (.num 9) [{ key := "val", index := none, query := none }])
          [("type", "a")]
          [.obj [("type", .str "a"), ("val", .num 1)],
           .obj [("type", .str "a"), ("val", .num 2)]]).map
        (fun ys => JSON.obj (setKey
          [("tags", .arr
            [.obj [("type", .str "a"), ("val", .num 1)],
             .obj [("type", .str "a"), ("val", .num 2)]])]
          "tags" (.arr ys))) :=
  insert_query_broadcast "$.tags[?(@.type==\"a\")].val" "tags"
    "?(@.type==\"a\")" [{ key := "val", index := none, query := none }]
    (.num 9)
    [("tags", .arr
      [.obj [("type", .str "a"), ("val", .num 1)],
       .obj [("type", .str "a"), ("val", .num 2)]])]
    [.obj [("type", .str "a"), ("val", .num 1)],
     .obj [("type", .str "a"), ("val", .num 2)]]
    [("type", "a")]
    (by decide) (by decide) (by decide) (by decide)

/-- **C4**.  Query with a literal index selects among the *matching*
elements: when the array already holds more than `index` elements
satisfying the conditions, `insert_query` updates the element at position
`matchListN[index]` — the `(index+1)`-th element among those satisfying
the conditions (which itself satisfies them), not the `(index+1)`-th
element of the array overall. -/
theorem insert_query_index_selects_match (p k q istr : String)
    (rest : List Segment) (v : JSON) (fields : List (String × JSON))
    (xs : List JSON) (conds : List (String × String)) (i : Nat)
    (hp : parse_path p =
      { key := k, index := some istr, query := some q } :: rest)
    (hc : condPairs (parseConds q) = some conds)
    (hl : lookupF fields k = some (.arr xs))
    (ho : ∀ e ∈ xs, isObjB e = true)
    (hi : digitsToNat istr = i)
    (hlt : i < (matchListN conds xs).length) :
    satisfiesAll conds
        (xs.getD ((matchListN conds xs).getD i 0) (.obj [])) = true ∧
    insert_query p v (.obj fields) =
      (descendUpd v rest
          (xs.getD ((matchListN conds xs).getD i 0) (.obj []))).map
        (fun e1 => JSON.obj (setKey fields k
          (.arr (xs.set ((matchListN conds xs).getD i 0) e1)))) := by
  set t : Nat := (matchListN conds xs).getD i 0 with htdef
  have hk : hasKey fields k = true := hasKey_of_lookup fields k _ hl
  have hall : xs.all isObjB = true := by
    rw [List.all_eq_true]
    exact ho
  have hti : (matchListN conds xs)[i]? = some t := by
    rw [htdef, List.getD_eq_getElem?_getD, List.getElem?_eq_getElem hlt]
    rfl
  have htmem : t ∈ matchListN conds xs := List.getElem?_mem hti
  obtain ⟨htlt, hsat⟩ := matchListN_mem conds xs t htmem
  have hsat' : satisfiesAll conds (xs.getD t (.obj [])) = true := hsat
  refine ⟨hsat', ?_⟩
  have hxst : xs[t]? = some (xs.getD t (.obj [])) := by
    rw [List.getD_eq_getElem?_getD, List.getElem?_eq_getElem htlt]
    rfl
  have hnotle :
      ¬(((matchListN conds xs).map Int.ofNat).length ≤ digitsToNat istr) := by
    rw [List.length_map, hi]
    omega
  simp only [insert_query, hp, iterIQ_eq_step, iterIQStep, hc, hk, hl, hall,
    if_true, queryIndices_eq]
  rw [if_neg hnotle]
  rw [pyGetL_ofNat, hi, List.getElem?_map, hti]
  simp only [Option.map_some', Option.some_bind]
  rw [pyGetL_ofNat, hxst]
  simp only [Option.some_bind]
  cases hupd : descendUpd v rest (xs.getD t (.obj [])) with
  | none => rfl
  | some e1 =>
    simp only [Option.some_bind, pySetL_ofNat xs t e1 htlt, Option.map_some']

/-- **C4 witness**: with `tags = [{type:"b"}, {type:"a",id:1},
{type:"a",id:2}]` and the path `$.tags[?(@.type=="a")][1]`, the matching
positions are `[1, 2]`, so index 1 targets array position 2 (the second
*matching* element), not array position 1. -/
theorem insert_query_index_selects_match_witness :
    satisfiesAll [("type", "a")]
        (([.obj [("type", .str "b")],
           .obj [("type", .str "a"), ("id", .num 1)],
           .obj [("type", .str "a"), ("id", .num 2)]] : List JSON).getD
          ((matchListN [("type", "a")]
            [.obj [("type", .str "b")],
             .obj [("type", .str "a"), ("id", .num 1)],
             .obj [("type", .str "a"), ("id", .num 2)]]).getD 1 0)
          (.obj [])) = true ∧
    insert_query "$.tags[?(@.type==\"a\")][1]" (.str "w")
        (.obj [("tags", .arr
          [.obj [("type", .str "b")],
           .obj [("type", .str "a"), ("id", .num 1)],
           .obj [("type", .str "a"), ("id", .num 2)]])]) =
      (descendUpd (.str "w") []
          (([.obj [("type", .str "b")],
             .obj [("type", .str "a"), ("id", .num 1)],
             .obj [("type", .str "a"), ("id", .num 2)]] : List JSON).getD
            ((matchListN [("type", "a")]
              [.obj [("type", .str "b")],
               .obj [("type", .str "a"), ("id", .num 1)],
               .obj [("type", .str "a"), ("id", .num 2)]]).getD 1 0)
            (.obj []))).map
        (fun e1 => JSON.obj (setKey
          [("tags", .arr
            [.obj [("type", .str "b")],
             .obj [("type", .str "a"), ("id", .num 1)],
             .obj [("type", .str "a"), ("id", .num 2)]])]
          "tags"
          (.arr (([.obj [("type", .str "b")],
                   .obj [("type", .str "a"), ("id", .num 1)],
                   .obj [("type", .str "a"), ("id", .num 2)]] : List JSON).set
            ((matchListN [("type", "a")]
              [.obj [("type", .str "b")],
               .obj [("type", .str "a"), ("id", .num 1)],
               .obj [("type", .str "a"), ("id", .num 2)]]).getD 1 0) e1)))) :=
  insert_query_index_selects_match "$.tags[?(@.type==\"a\")][1]" "tags"
    "?(@.type==\"a\")" "1" [] (.str "w")
    [("tags", .arr
      [.obj [("type", .str "b")],
       .obj [("type", .str "a"), ("id", .num 1)],
       .obj [("type", .str "a"), ("id", .num 2)]])]
    [.obj [("type", .str "b")],
     .obj [("type", .str "a"), ("id", .num 1)],
     .obj [("type", .str "a"), ("id", .num 2)]]
    [("type", "a")] 1
    (by decide) (by decide) (by decide) (by decide) (by decide) (by decide)

/-! ### Claim C8: duplicate paths in the flattened map -/

theorem digitChar_isDigit (d : Nat) : (digitChar d).isDigit = true := by
  rcases d with _ | _ | _ | _ | _ | _ | _ | _ | _ | d <;> rfl

theorem digitChar_inj_lt :
    ∀ a, a < 10 → ∀ b, b < 10 → digitChar a = digitChar b → a = b := by
  decide

theorem natDigits_eq (n : Nat) :
    natDigits n =
      if n = 0 then [] else natDigits (n / 10) ++ [digitChar (n % 10)] := by
  rw [natDigits]
  split <;> rfl

theorem natDigits_nil_iff (n : Nat) : natDigits n = [] ↔ n = 0 := by
  constructor
  · intro h
    by_contra hn
    rw [natDigits_eq, if_neg hn] at h
    exact absurd h (by simp)
  · intro h
    rw [h, natDigits_eq, if_pos rfl]

theorem natDigits_digits (n : Nat) :
    ∀ c ∈ natDigits n, c.isDigit = true := by
  induction n using Nat.strong_induction_on with
  | _ n ih =>
    intro c hc
    by_cases hn : n = 0
    · rw [hn, natDigits_eq, if_pos rfl] at hc
      exact absurd hc (by simp)
    · rw [natDigits_eq, if_neg hn, List.mem_append] at hc
      rcases hc with hc | hc
      · exact ih (n / 10) (Nat.div_lt_self (Nat.pos_of_ne_zero hn) (by omega)) c hc
      · rw [List.mem_singleton] at hc
        rw [hc]
        exact digitChar_isDigit (n % 10)

theorem natToStrGo_eq_natDigits :
    ∀ (fuel n : Nat) (acc : List Char), n ≤ fuel →
      natToStrGo fuel n acc = natDigits n ++ acc := by
  intro fuel
  induction fuel with
  | zero =>
    intro n acc h
    have : n = 0 := by omega
    rw [this]
    rw [natDigits_eq, if_pos rfl]
    rfl
  | succ fuel ih =>
    intro n acc h
    by_cases hn : n = 0
    · rw [hn]
      rw [natDigits_eq, if_pos rfl]
      rfl
    · show natToStrGo (fuel + 1) n acc = _
      rw [show natToStrGo (fuel + 1) n acc =
          (if n = 0 then acc
           else natToStrGo fuel (n / 10) (digitChar (n % 10) :: acc)) from rfl]
      rw [if_neg hn]
      have hdiv : n / 10 ≤ fuel := by
        have := Nat.div_lt_self (Nat.pos_of_ne_zero hn) (show 1 < 10 by omega)
        omega
      rw [ih (n / 10) (digitChar (n % 10) :: acc) hdiv]
      rw [natDigits_eq n, if_neg hn]
      simp

theorem natToStr_data (n : Nat) (hn : n ≠ 0) :
    (natToStr n).data = natDigits n := by
  rw [natToStr, if_neg hn]
  show natToStrGo n n [] = _
  rw [natToStrGo_eq_natDigits n n [] (Nat.le_refl n)]
  simp

theorem natToStr_digits (n : Nat) :
    ∀ c ∈ (natToStr n).data, c.isDigit = true := by
  by_cases hn : n = 0
  · rw [hn]
    intro c hc
    rw [show (natToStr 0).data = ['0'] from rfl] at hc
    rw [List.mem_singleton] at hc
    rw [hc]
    rfl
  · rw [natToStr_data n hn]
    exact natDigits_digits n

theorem append_singleton_inj {α : Type} :
    ∀ (l1 l2 : List α) (a b : α), l1 ++ [a] = l2 ++ [b] → l1 = l2 ∧ a = b := by
  intro l1
  induction l1 with
  | nil =>
    intro l2 a b h
    cases l2 with
    | nil => simpa using h
    | cons c l2 =>
      simp only [List.nil_append, List.cons_append, List.cons.injEq] at h
      exact absurd h.2.symm (List.append_ne_nil_of_right_ne_nil l2 (by simp))
  | cons c l1 ih =>
    intro l2 a b h
    cases l2 with
    | nil =>
      simp only [List.cons_append, List.nil_append, List.cons.injEq] at h
      exact absurd h.2 (List.append_ne_nil_of_right_ne_nil l1 (by simp))
    | cons d l2 =>
      simp only [List.cons_append, List.cons.injEq] at h
      obtain ⟨h1, h2⟩ := ih l2 a b h.2
      exact ⟨by rw [h.1, h1], h2⟩

theorem natDigits_inj : ∀ m, ∀ n, natDigits m = natDigits n → m = n := by
  intro m
  induction m using Nat.strong_induction_on with
  | _ m ih =>
    intro n h
    by_cases hm : m = 0
    · rw [hm, natDigits_eq, if_pos rfl] at h
      exact (hm.symm ▸ (natDigits_nil_iff n).mp h.symm).symm
    · by_cases hn : n = 0
      · rw [hn, natDigits_eq 0, if_pos rfl] at h
        exact absurd ((natDigits_nil_iff m).mp h) hm
      · rw [natDigits_eq m, if_neg hm, natDigits_eq n, if_neg hn] at h
        obtain ⟨h1, h2⟩ := append_singleton_inj _ _ _ _ h
        have hdl : m / 10 = n / 10 :=
          ih (m / 10) (Nat.div_lt_self (Nat.pos_of_ne_zero hm) (by omega)) _ h1
        have hmod : m % 10 = n % 10 :=
          digitChar_inj_lt (m % 10) (Nat.mod_lt m (by omega)) (n % 10)
            (Nat.mod_lt n (by omega)) h2
        omega

theorem natToStr_inj : ∀ m n, natToStr m = natToStr n → m = n := by
  intro m n h
  have hdata : (natToStr m).data = (natToStr n).data := by rw [h]
  by_cases hm : m = 0
  · by_cases hn : n = 0
    · omega
    · rw [hm, natToStr_data n hn] at hdata
      rw [natDigits_eq, if_neg hn] at hdata
      have h0 : natDigits (n / 10) ++ [digitChar (n % 10)] = [] ++ ['0'] := by
        rw [← hdata]
        rfl
      obtain ⟨h1, h2⟩ := append_singleton_inj _ _ _ _ h0
      have hq : n / 10 = 0 := (natDigits_nil_iff _).mp h1
      have hr : n % 10 = 0 :=
        digitChar_inj_lt (n % 10) (Nat.mod_lt n (by omega)) 0 (by omega) h2
      omega
  · by_cases hn : n = 0
    · rw [hn, natToStr_data m hm] at hdata
      rw [natDigits_eq, if_neg hm] at hdata
      have h0 : natDigits (m / 10) ++ [digitChar (m % 10)] = [] ++ ['0'] := by
        rw [hdata]
        rfl
      obtain ⟨h1, h2⟩ := append_singleton_inj _ _ _ _ h0
      have hq : m / 10 = 0 := (natDigits_nil_iff _).mp h1
      have hr : m % 10 = 0 :=
        digitChar_inj_lt (m % 10) (Nat.mod_lt m (by omega)) 0 (by omega) h2
      omega
    · rw [natToStr_data m hm, natToStr_data n hn] at hdata
      exact natDigits_inj m n hdata

theorem marker_split (m : Char) :
    ∀ (a : List Char) (b r s : List Char), m ∉ a → m ∉ b →
      a ++ r = b ++ s →
      (r = [] ∨ r.head? = some m) → (s = [] ∨ s.head? = some m) →
      a = b ∧ r = s := by
  intro a
  induction a with
  | nil =>
    intro b r s _ hmb h hr hs
    cases b with
    | nil => exact ⟨rfl, h⟩
    | cons c b =>
      simp only [List.nil_append, List.cons_append] at h
      rcases hr with hr | hr
      · rw [hr] at h
        exact absurd h.symm (by simp)
      · rw [h] at hr
        simp only [List.head?_cons, Option.some.injEq] at hr
        exact absurd (hr ▸ List.mem_cons_self c b) hmb
  | cons c a ih =>
    intro b r s hma hmb h hr hs
    cases b with
    | nil =>
      simp only [List.cons_append, List.nil_append] at h
      rcases hs with hs | hs
      · rw [hs] at h
        exact absurd h (by simp)
      · rw [← h] at hs
        simp only [List.head?_cons, Option.some.injEq] at hs
        exact absurd (hs ▸ List.mem_cons_self c a) hma
    | cons d b =>
      simp only [List.cons_append, List.cons.injEq] at h
      obtain ⟨h1, h2⟩ := ih b r s (fun hx => hma (List.mem_cons_of_mem c hx))
        (fun hx => hmb (List.mem_cons_of_mem d hx)) h.2 hr hs
      exact ⟨by rw [h.1, h1], h2⟩

theorem joinSep_inj (sep : Char) :
    ∀ (l1 l2 : List (List Char)),
      (∀ p ∈ l1, sep ∉ p) → (∀ p ∈ l2, sep ∉ p) →
      l1 ≠ [] → l2 ≠ [] →
      joinSep sep l1 = joinSep sep l2 → l1 = l2 := by
  intro l1
  induction l1 with
  | nil => intro l2 _ _ h1 _ _; exact absurd rfl h1
  | cons a l1 ih =>
    intro l2 hd1 hd2 _ hne2 h
    cases l2 with
    | nil => exact absurd rfl hne2
    | cons b l2 =>
      cases l1 with
      | nil =>
        cases l2 with
        | nil =>
          rw [show joinSep sep [a] = a from rfl,
            show joinSep sep [b] = b from rfl] at h
          rw [h]
        | cons c l2 =>
          rw [show joinSep sep [a] = a from rfl,
            show joinSep sep (b :: c :: l2) =
              b ++ sep :: joinSep sep (c :: l2) from rfl] at h
          obtain ⟨_, habs⟩ := marker_split sep a b []
            (sep :: joinSep sep (c :: l2)) (hd1 a (by simp)) (hd2 b (by simp))
            (by simpa using h) (Or.inl rfl) (Or.inr rfl)
          exact absurd habs.symm (by simp)
      | cons c l1 =>
        cases l2 with
        | nil =>
          rw [show joinSep sep (a :: c :: l1) =
              a ++ sep :: joinSep sep (c :: l1) from rfl,
            show joinSep sep [b] = b from rfl] at h
          obtain ⟨_, habs⟩ := marker_split sep a b
            (sep :: joinSep sep (c :: l1)) [] (hd1 a (by simp)) (hd2 b (by simp))
            (by simpa using h) (Or.inr rfl) (Or.inl rfl)
          exact absurd habs (by simp)
        | cons d l2 =>
          rw [show joinSep sep (a :: c :: l1) =
              a ++ sep :: joinSep sep (c :: l1) from rfl,
            show joinSep sep (b :: d :: l2) =
              b ++ sep :: joinSep sep (d :: l2) from rfl] at h
          obtain ⟨hab, hrest⟩ := marker_split sep a b
            (sep :: joinSep sep (c :: l1)) (sep :: joinSep sep (d :: l2))
            (hd1 a (by simp)) (hd2 b (by simp)) h (Or.inr rfl) (Or.inr rfl)
          simp only [List.cons.injEq] at hrest
          have := ih (d :: l2) (fun p hp => hd1 p (by simp [hp]))
            (fun p hp => hd2 p (by simp [hp])) (by simp) (by simp) hrest.2
          rw [hab, this]

theorem isDigit_ne (c : Char) (h : c.isDigit = true) :
    c ≠ '[' ∧ c ≠ ']' ∧ c ≠ '.' := by
  refine ⟨?_, ?_, ?_⟩ <;> intro hc <;> rw [hc] at h <;> exact absurd h (by decide)

theorem goodKey_chars (s : String) (h : goodKeyB s = true) :
    '.' ∉ s.data ∧ '[' ∉ s.data := by
  rw [goodKeyB, List.all_eq_true] at h
  constructor
  · intro hc
    have := h '.' hc
    simp at this
  · intro hc
    have := h '[' hc
    simp at this

theorem brackets_chars : ∀ (is : List Nat) (c : Char), c ∈ brackets is →
    c = '[' ∨ c = ']' ∨ c.isDigit = true := by
  intro is
  induction is with
  | nil => intro c hc; exact absurd hc (by simp [brackets])
  | cons i is ih =>
    intro c hc
    rw [brackets] at hc
    rcases List.mem_cons.mp hc with hc | hc
    · exact Or.inl hc
    · rcases List.mem_append.mp hc with hc | hc
      · exact Or.inr (Or.inr (natToStr_digits i c hc))
      · rcases List.mem_cons.mp hc with hc | hc
        · exact Or.inr (Or.inl hc)
        · exact ih c hc

theorem brackets_dot_free (is : List Nat) : '.' ∉ brackets is := by
  intro hc
  rcases brackets_chars is '.' hc with h | h | h
  · exact absurd h (by decide)
  · exact absurd h (by decide)
  · exact absurd h (by decide)

theorem String.ext_mk (s1 s2 : String) (h : s1.data = s2.data) : s1 = s2 := by
  cases s1
  cases s2
  exact congrArg String.mk h

theorem brackets_inj : ∀ is1 is2 : List Nat,
    brackets is1 = brackets is2 → is1 = is2 := by
  intro is1
  induction is1 with
  | nil =>
    intro is2 h
    cases is2 with
    | nil => rfl
    | cons i2 is2 =>
      rw [show brackets [] = [] from rfl, brackets] at h
      exact absurd h (by simp)
  | cons i1 is1 ih =>
    intro is2 h
    cases is2 with
    | nil =>
      rw [brackets] at h
      exact List.noConfusion h
    | cons i2 is2 =>
      rw [brackets, brackets] at h
      simp only [List.cons.injEq, true_and] at h
      have hfree1 : ']' ∉ (natToStr i1).data := fun hc =>
        absurd rfl (isDigit_ne ']' (natToStr_digits i1 ']' hc)).2.1
      have hfree2 : ']' ∉ (natToStr i2).data := fun hc =>
        absurd rfl (isDigit_ne ']' (natToStr_digits i2 ']' hc)).2.1
      obtain ⟨hd, hrest⟩ := marker_split ']' _ _ _ _ hfree1 hfree2 h
        (Or.inr rfl) (Or.inr rfl)
      simp only [List.cons.injEq, true_and] at hrest
      have hi : i1 = i2 := natToStr_inj i1 i2 (String.ext_mk _ _ hd)
      rw [hi, ih is2 hrest]

theorem renderItem_inj (it1 it2 : String × List Nat)
    (h1 : goodKeyB it1.1 = true) (h2 : goodKeyB it2.1 = true)
    (h : renderItem it1 = renderItem it2) : it1 = it2 := by
  obtain ⟨k1, is1⟩ := it1
  obtain ⟨k2, is2⟩ := it2
  rw [renderItem, renderItem] at h
  have hh1 : (r : List Char) → r = brackets is1 →
      r = [] ∨ r.head? = some '[' := by
    intro r hr
    cases is1 with
    | nil => exact Or.inl (by rw [hr]; rfl)
    | cons i is => exact Or.inr (by rw [hr, brackets]; rfl)
  have hh2 : (r : List Char) → r = brackets is2 →
      r = [] ∨ r.head? = some '[' := by
    intro r hr
    cases is2 with
    | nil => exact Or.inl (by rw [hr]; rfl)
    | cons i is => exact Or.inr (by rw [hr, brackets]; rfl)
  obtain ⟨hk, hb⟩ := marker_split '[' _ _ _ _ (goodKey_chars k1 h1).2
    (goodKey_chars k2 h2).2 h (hh1 _ rfl) (hh2 _ rfl)
  have : k1 = k2 := String.ext_mk _ _ hk
  rw [this, brackets_inj is1 is2 hb]

theorem renderItem_dot_free (it : String × List Nat)
    (h : goodKeyB it.1 = true) : '.' ∉ renderItem it := by
  intro hc
  rw [renderItem] at hc
  rcases List.mem_append.mp hc with hc | hc
  · exact absurd hc (goodKey_chars it.1 h).1
  · exact absurd hc (brackets_dot_free it.2)

theorem map_renderItem_inj :
    ∀ t1 t2 : List (String × List Nat),
      (∀ it ∈ t1, goodKeyB it.1 = true) → (∀ it ∈ t2, goodKeyB it.1 = true) →
      t1.map renderItem = t2.map renderItem → t1 = t2 := by
  intro t1
  induction t1 with
  | nil =>
    intro t2 _ _ h
    cases t2 with
    | nil => rfl
    | cons b t2 => exact absurd h (by simp)
  | cons a t1 ih =>
    intro t2 hg1 hg2 h
    cases t2 with
    | nil => exact absurd h (by simp)
    | cons b t2 =>
      simp only [List.map_cons, List.cons.injEq] at h
      rw [renderItem_inj a b (hg1 a (by simp)) (hg2 b (by simp)) h.1,
        ih t2 (fun it hit => hg1 it (by simp [hit]))
          (fun it hit => hg2 it (by simp [hit])) h.2]

theorem traceRender_inj (t1 t2 : List (String × List Nat))
    (hg1 : ∀ it ∈ t1, goodKeyB it.1 = true)
    (hg2 : ∀ it ∈ t2, goodKeyB it.1 = true)
    (hne1 : t1 ≠ []) (hne2 : t2 ≠ [])
    (h : pyJoin '.' (t1.map renderStr) = pyJoin '.' (t2.map renderStr)) :
    t1 = t2 := by
  have hdata : joinSep '.' ((t1.map renderStr).map String.data) =
      joinSep '.' ((t2.map renderStr).map String.data) := by
    have := congrArg String.data h
    simpa [pyJoin] using this
  have hmapmap : ∀ t : List (String × List Nat),
      (t.map renderStr).map String.data = t.map renderItem := by
    intro t
    rw [List.map_map]
    rfl
  rw [hmapmap t1, hmapmap t2] at hdata
  have hjoin := joinSep_inj '.' (t1.map renderItem) (t2.map renderItem)
    (fun p hp => by
      obtain ⟨it, hit, rfl⟩ := List.mem_map.mp hp
      exact renderItem_dot_free it (hg1 it hit))
    (fun p hp => by
      obtain ⟨it, hit, rfl⟩ := List.mem_map.mp hp
      exact renderItem_dot_free it (hg2 it hit))
    (by simpa using hne1) (by simpa using hne2) hdata
  exact map_renderItem_inj t1 t2 hg1 hg2 hjoin

theorem renderStr_key (k : String) : renderStr (k, []) = k := by
  apply String.ext_mk
  show k.data ++ brackets [] = k.data
  rw [show brackets [] = [] from rfl]
  simp

theorem brackets_snoc (is : List Nat) (i : Nat) :
    brackets (is ++ [i]) =
      brackets is ++ ('[' :: ((natToStr i).data ++ [']'])) := by
  induction is with
  | nil => rfl
  | cons j is ih =>
    rw [List.cons_append, brackets, brackets, ih]
    simp

theorem renderStr_snoc (la : String × List Nat) (idx : Nat) :
    renderStr la ++ "[" ++ natToStr idx ++ "]" =
      renderStr (la.1, la.2 ++ [idx]) := by
  apply String.ext_mk
  show ((renderItem la ++ "[".data) ++ (natToStr idx).data) ++ "]".data =
    renderItem (la.1, la.2 ++ [idx])
  rw [renderItem, renderItem]
  show ((la.1.data ++ brackets la.2 ++ ['[']) ++ (natToStr idx).data) ++ [']'] =
    la.1.data ++ brackets (la.2 ++ [idx])
  rw [brackets_snoc]
  simp

theorem iterFields_eq_trvFields (F : List (String × List Nat) × JSON → String × JSON)
    (fields : List (String × JSON))
    (IH : ∀ kv ∈ fields, ∀ items : List (String × List Nat), items ≠ [] →
      iterChild kv.2 (items.map renderStr) = (trv kv.2 items).map F) :
    ∀ items : List (String × List Nat), items ≠ [] →
      iterFields fields (items.map renderStr) = (trvFields fields items).map F := by
  induction fields with
  | nil => intro items _; rfl
  | cons kv rest ih =>
    intro items hne
    obtain ⟨k, v⟩ := kv
    show iterChild v (items.map renderStr ++ [k]) ++
        iterFields rest (items.map renderStr) = _
    rw [show trvFields ((k, v) :: rest) items =
      trv v (items ++ [(k, [])]) ++ trvFields rest items from rfl]
    rw [List.map_append]
    have hkeys : items.map renderStr ++ [k] =
        (items ++ [(k, [])]).map renderStr := by
      rw [List.map_append]
      simp [renderStr_key]
    rw [hkeys, IH (k, v) (by simp) (items ++ [(k, [])]) (by simp),
      ih (fun kv2 hkv2 => IH kv2 (by simp [hkv2])) items hne]

theorem iterElems_eq_trvElems (F : List (String × List Nat) × JSON → String × JSON)
    (xs : List JSON)
    (IH : ∀ e ∈ xs, ∀ items : List (String × List Nat), items ≠ [] →
      iterChild e (items.map renderStr) = (trv e items).map F) :
    ∀ (idx : Nat) (items : List (String × List Nat)), items ≠ [] →
      iterElems xs idx (items.map renderStr) = (trvElems xs idx items).map F := by
  induction xs with
  | nil => intro idx items _; rfl
  | cons e rest ih =>
    intro idx items hne
    rcases List.eq_nil_or_concat items with rfl | ⟨pre, la, hit⟩
    · exact absurd rfl hne
    · rw [List.concat_eq_append] at hit
      subst hit
      show iterChild e
          (((pre ++ [la]).map renderStr).dropLast ++
            [((pre ++ [la]).map renderStr).getLastD "" ++ "[" ++
              natToStr idx ++ "]"]) ++
          iterElems rest (idx + 1) ((pre ++ [la]).map renderStr) = _
      rw [show trvElems (e :: rest) idx (pre ++ [la]) =
        trv e ((pre ++ [la]).dropLast ++
          [(((pre ++ [la]).getLastD ("", [])).1,
            ((pre ++ [la]).getLastD ("", [])).2 ++ [idx])]) ++
        trvElems rest (idx + 1) (pre ++ [la]) from rfl]
      rw [List.map_append]
      have hdl : (pre.map renderStr ++ [la].map renderStr).dropLast =
          pre.map renderStr := by simp
      have hld : (pre.map renderStr ++ [la].map renderStr).getLastD "" =
          renderStr la := by simp
      have hdl2 : (pre ++ [la]).dropLast = pre := List.dropLast_concat
      have hld2 : (pre ++ [la]).getLastD ("", []) = la := by simp
      rw [hdl, hld, hdl2, hld2, renderStr_snoc la idx]
      have hkeys : pre.map renderStr ++ [renderStr (la.1, la.2 ++ [idx])] =
          (pre ++ [(la.1, la.2 ++ [idx])]).map renderStr := by
        rw [List.map_append]
        rfl
      rw [hkeys, IH e (by simp) (pre ++ [(la.1, la.2 ++ [idx])]) (by simp)]
      rw [show List.map renderStr pre ++ List.map renderStr [la] =
        List.map renderStr (pre ++ [la]) from
          (List.map_append renderStr pre [la]).symm]
      rw [ih (fun e2 he2 => IH e2 (by simp [he2])) (idx + 1) (pre ++ [la])
        (by simp)]
      rw [List.map_append]

theorem iterChild_eq_trv_aux :
    ∀ (n : Nat) (v : JSON), sizeOf v ≤ n →
      ∀ items : List (String × List Nat), items ≠ [] →
        iterChild v (items.map renderStr) =
          (trv v items).map
            (fun tv => (pyJoin '.' (tv.1.map renderStr), tv.2)) := by
  intro n
  induction n with
  | zero =>
    intro v h
    exfalso
    cases v <;> simp at h
  | succ n ih =>
    intro v h items hne
    cases v with
    | obj fields =>
      refine iterFields_eq_trvFields _ fields ?_ items hne
      intro kv hkv items2 hne2
      have hsz : sizeOf kv.2 ≤ n := by
        have := List.sizeOf_lt_of_mem hkv
        obtain ⟨a, b⟩ := kv
        simp at h this ⊢
        omega
      exact ih kv.2 hsz items2 hne2
    | arr xs =>
      refine iterElems_eq_trvElems _ xs ?_ 0 items hne
      intro e he items2 hne2
      have hsz : sizeOf e ≤ n := by
        have := List.sizeOf_lt_of_mem he
        simp at h ⊢
        omega
      exact ih e hsz items2 hne2
    | null => rfl
    | bool b => rfl
    | num m => rfl
    | str s => rfl

theorem flatten_eq_trv (d : JSON) :
    flatten d = (trv d [("$", [])]).map
      (fun tv => (pyJoin '.' (tv.1.map renderStr), tv.2)) := by
  have h0 : (["$"] : List String) = [("$", ([] : List Nat))].map renderStr := by
    simp [renderStr_key]
  rw [flatten, h0]
  exact iterChild_eq_trv_aux (sizeOf d) d (Nat.le_refl _) _ (by simp)

theorem getLastD_mem {α : Type} (l : List α) (h : l ≠ []) (d : α) :
    l.getLastD d ∈ l := by
  rcases List.eq_nil_or_concat l with rfl | ⟨pre, la, hit⟩
  · exact absurd rfl h
  · rw [List.concat_eq_append] at hit
    subst hit
    simp

theorem items_decomp {α : Type} (l : List α) (h : l ≠ []) (d : α) :
    l = l.dropLast ++ [l.getLastD d] := by
  rcases List.eq_nil_or_concat l with rfl | ⟨pre, la, hit⟩
  · exact absurd rfl h
  · rw [List.concat_eq_append] at hit
    subst hit
    simp

theorem trvFields_shape (fields : List (String × JSON))
    (IH : ∀ kv ∈ fields, ∀ items : List (String × List Nat),
      items ≠ [] → ∀ t ∈ (trv kv.2 items).map Prod.fst,
      ∃ ext rest1, t = items.dropLast ++
        (((items.getLastD ("", [])).1,
          (items.getLastD ("", [])).2 ++ ext) :: rest1)) :
    ∀ items : List (String × List Nat),
      ∀ t ∈ (trvFields fields items).map Prod.fst,
        ∃ kv ∈ fields, ∃ ext rest1, t = items ++ ((kv.1, ext) :: rest1) := by
  induction fields with
  | nil => intro items t ht; exact absurd ht (by simp [trvFields])
  | cons kv rest ih =>
    intro items t ht
    obtain ⟨k, v⟩ := kv
    rw [show trvFields ((k, v) :: rest) items =
      trv v (items ++ [(k, [])]) ++ trvFields rest items from rfl,
      List.map_append] at ht
    rcases List.mem_append.mp ht with ht | ht
    · obtain ⟨ext, rest1, hsh⟩ :=
        IH (k, v) (by simp) (items ++ [(k, [])]) (by simp) t ht
      rw [List.dropLast_concat] at hsh
      refine ⟨(k, v), by simp, ext, rest1, ?_⟩
      simpa using hsh
    · obtain ⟨kv2, hkv2, ext, rest1, hsh⟩ :=
        ih (fun kv2 hkv2 => IH kv2 (by simp [hkv2])) items t ht
      exact ⟨kv2, by simp [hkv2], ext, rest1, hsh⟩

theorem trvElems_shape (xs : List JSON)
    (IH : ∀ e ∈ xs, ∀ items : List (String × List Nat),
      items ≠ [] → ∀ t ∈ (trv e items).map Prod.fst,
      ∃ ext rest1, t = items.dropLast ++
        (((items.getLastD ("", [])).1,
          (items.getLastD ("", [])).2 ++ ext) :: rest1)) :
    ∀ (idx : Nat) (items : List (String × List Nat)), items ≠ [] →
      ∀ t ∈ (trvElems xs idx items).map Prod.fst,
        ∃ j ext rest1, idx ≤ j ∧ t = items.dropLast ++
          (((items.getLastD ("", [])).1,
            (items.getLastD ("", [])).2 ++ (j :: ext)) :: rest1) := by
  induction xs with
  | nil => intro idx items _ t ht; exact absurd ht (by simp [trvElems])
  | cons e rest ih =>
    intro idx items hne t ht
    rw [show trvElems (e :: rest) idx items =
      trv e (items.dropLast ++
        [((items.getLastD ("", [])).1,
          (items.getLastD ("", [])).2 ++ [idx])]) ++
      trvElems rest (idx + 1) items from rfl,
      List.map_append] at ht
    rcases List.mem_append.mp ht with ht | ht
    · obtain ⟨ext, rest1, hsh⟩ := IH e (by simp) _ (by simp) t ht
      rw [List.dropLast_concat] at hsh
      refine ⟨idx, ext, rest1, Nat.le_refl idx, ?_⟩
      simpa [List.append_assoc] using hsh
    · obtain ⟨j, ext, rest1, hj, hsh⟩ :=
        ih (fun e2 he2 => IH e2 (by simp [he2])) (idx + 1) items hne t ht
      exact ⟨j, ext, rest1, by omega, hsh⟩

theorem trv_shape :
    ∀ (n : Nat) (v : JSON), sizeOf v ≤ n →
      ∀ items : List (String × List Nat), items ≠ [] →
      ∀ t ∈ (trv v items).map Prod.fst,
        ∃ ext rest1, t = items.dropLast ++
          (((items.getLastD ("", [])).1,
            (items.getLastD ("", [])).2 ++ ext) :: rest1) := by
  intro n
  induction n with
  | zero =>
    intro v h
    exfalso
    cases v <;> simp at h
  | succ n ih =>
    intro v h items hne t ht
    have hscalar : ∀ w : JSON, (trv w items).map Prod.fst = [items] →
        t ∈ (trv w items).map Prod.fst →
        ∃ ext rest1, t = items.dropLast ++
          (((items.getLastD ("", [])).1,
            (items.getLastD ("", [])).2 ++ ext) :: rest1) := by
      intro w hw htw
      rw [hw, List.mem_singleton] at htw
      refine ⟨[], [], ?_⟩
      rw [htw]
      conv_lhs => rw [items_decomp items hne ("", [])]
      simp
    cases v with
    | obj fields =>
      have IH : ∀ kv ∈ fields,
          ∀ items2 : List (String × List Nat), items2 ≠ [] →
          ∀ t2 ∈ (trv kv.2 items2).map Prod.fst,
          ∃ ext rest1, t2 = items2.dropLast ++
            (((items2.getLastD ("", [])).1,
              (items2.getLastD ("", [])).2 ++ ext) :: rest1) := by
        intro kv hkv items2 hne2 t2 ht2
        have hsz : sizeOf kv.2 ≤ n := by
          have := List.sizeOf_lt_of_mem hkv
          obtain ⟨a, b⟩ := kv
          simp at h this ⊢
          omega
        exact ih kv.2 hsz items2 hne2 t2 ht2
      obtain ⟨kv, _, ext, rest1, hsh⟩ := trvFields_shape fields IH items t ht
      refine ⟨[], (kv.1, ext) :: rest1, ?_⟩
      rw [hsh]
      conv_lhs => rw [items_decomp items hne ("", [])]
      simp
    | arr xs =>
      have IH : ∀ e ∈ xs,
          ∀ items2 : List (String × List Nat), items2 ≠ [] →
          ∀ t2 ∈ (trv e items2).map Prod.fst,
          ∃ ext rest1, t2 = items2.dropLast ++
            (((items2.getLastD ("", [])).1,
              (items2.getLastD ("", [])).2 ++ ext) :: rest1) := by
        intro e he items2 hne2 t2 ht2
        have hsz : sizeOf e ≤ n := by
          have := List.sizeOf_lt_of_mem he
          simp at h ⊢
          omega
        exact ih e hsz items2 hne2 t2 ht2
      obtain ⟨j, ext, rest1, _, hsh⟩ :=
        trvElems_shape xs IH 0 items hne t ht
      exact ⟨j :: ext, rest1, hsh⟩
    | null => exact hscalar JSON.null rfl ht
    | bool b => exact hscalar (JSON.bool b) rfl ht
    | num m => exact hscalar (JSON.num m) rfl ht
    | str st => exact hscalar (JSON.str st) rfl ht

theorem trv_shape_full (v : JSON) :
    ∀ items : List (String × List Nat), items ≠ [] →
      ∀ t ∈ (trv v items).map Prod.fst,
        ∃ ext rest1, t = items.dropLast ++
          (((items.getLastD ("", [])).1,
            (items.getLastD ("", [])).2 ++ ext) :: rest1) :=
  trv_shape (sizeOf v) v (Nat.le_refl _)

theorem trvFields_key (fields : List (String × JSON))
    (items : List (String × List Nat)) :
    ∀ t ∈ (trvFields fields items).map Prod.fst,
      ∃ kv ∈ fields, ∃ ext rest1, t = items ++ ((kv.1, ext) :: rest1) :=
  trvFields_shape fields (fun kv _ => trv_shape_full kv.2) items

theorem trvElems_key (xs : List JSON) (idx : Nat)
    (items : List (String × List Nat)) (hne : items ≠ []) :
    ∀ t ∈ (trvElems xs idx items).map Prod.fst,
      ∃ j ext rest1, idx ≤ j ∧ t = items.dropLast ++
        (((items.getLastD ("", [])).1,
          (items.getLastD ("", [])).2 ++ (j :: ext)) :: rest1) :=
  trvElems_shape xs (fun e _ => trv_shape_full e) idx items hne

theorem nodupKeysB_cons (k : String) (rest : List String)
    (h : nodupKeysB (k :: rest) = true) :
    (∀ x ∈ rest, ¬(x = k)) ∧ nodupKeysB rest = true := by
  rw [show nodupKeysB (k :: rest) =
    (!(rest.any (fun x => x = k)) && nodupKeysB rest) from rfl,
    Bool.and_eq_true, Bool.not_eq_true'] at h
  refine ⟨?_, h.2⟩
  intro x hx hxk
  have : rest.any (fun x => x = k) = true := by
    rw [List.any_eq_true]
    exact ⟨x, hx, by simp [hxk]⟩
  rw [this] at h
  exact Bool.noConfusion h.1

theorem goodFields_cons (k : String) (v : JSON) (rest : List (String × JSON))
    (h : goodFields ((k, v) :: rest) = true) :
    goodKeyB k = true ∧ goodDoc v = true ∧ goodFields rest = true := by
  rw [show goodFields ((k, v) :: rest) =
    (goodKeyB k && goodDoc v && goodFields rest) from rfl,
    Bool.and_eq_true, Bool.and_eq_true] at h
  exact ⟨h.1.1, h.1.2, h.2⟩

theorem goodElems_cons (e : JSON) (rest : List JSON)
    (h : goodElems (e :: rest) = true) :
    goodDoc e = true ∧ goodElems rest = true := by
  rw [show goodElems (e :: rest) = (goodDoc e && goodElems rest) from rfl,
    Bool.and_eq_true] at h
  exact h

theorem trvFields_nodup (fields : List (String × JSON))
    (IH : ∀ kv ∈ fields, goodDoc kv.2 = true →
      ∀ items : List (String × List Nat), items ≠ [] →
        ((trv kv.2 items).map Prod.fst).Nodup) :
    ∀ items : List (String × List Nat),
      nodupKeysB (fields.map Prod.fst) = true → goodFields fields = true →
      ((trvFields fields items).map Prod.fst).Nodup := by
  induction fields with
  | nil => intro items _ _; simp [trvFields]
  | cons kv rest ih =>
    intro items hnd hgf
    obtain ⟨k, v⟩ := kv
    obtain ⟨hgk, hgv, hgrest⟩ := goodFields_cons k v rest hgf
    rw [show ((k, v) :: rest).map Prod.fst = k :: rest.map Prod.fst from rfl]
      at hnd
    obtain ⟨hknotin, hndrest⟩ := nodupKeysB_cons k (rest.map Prod.fst) hnd
    rw [show trvFields ((k, v) :: rest) items =
      trv v (items ++ [(k, [])]) ++ trvFields rest items from rfl,
      List.map_append, List.nodup_append]
    refine ⟨IH (k, v) (by simp) hgv (items ++ [(k, [])]) (by simp),
      ih (fun kv2 hkv2 => IH kv2 (by simp [hkv2])) items hndrest hgrest, ?_⟩
    intro t ht ht'
    obtain ⟨ext, r1, hsh⟩ :=
      trv_shape_full v (items ++ [(k, [])]) (by simp) t ht
    rw [List.dropLast_concat] at hsh
    have hsh1 : t = items ++ ((k, ext) :: r1) := by simpa using hsh
    obtain ⟨kv2, hkv2, ext2, r2, hsh2⟩ := trvFields_key rest items t ht'
    rw [hsh1] at hsh2
    have := List.append_cancel_left hsh2
    simp only [List.cons.injEq, Prod.mk.injEq] at this
    exact hknotin kv2.1 (List.mem_map.mpr ⟨kv2, hkv2, rfl⟩) this.1.1.symm

theorem trvElems_nodup (xs : List JSON)
    (IH : ∀ e ∈ xs, goodDoc e = true →
      ∀ items : List (String × List Nat), items ≠ [] →
        ((trv e items).map Prod.fst).Nodup) :
    ∀ (idx : Nat) (items : List (String × List Nat)), items ≠ [] →
      goodElems xs = true →
      ((trvElems xs idx items).map Prod.fst).Nodup := by
  induction xs with
  | nil => intro idx items _ _; simp [trvElems]
  | cons e rest ih =>
    intro idx items hne hge
    obtain ⟨hgd, hgrest⟩ := goodElems_cons e rest hge
    rw [show trvElems (e :: rest) idx items =
      trv e (items.dropLast ++
        [((items.getLastD ("", [])).1,
          (items.getLastD ("", [])).2 ++ [idx])]) ++
      trvElems rest (idx + 1) items from rfl,
      List.map_append, List.nodup_append]
    refine ⟨IH e (by simp) hgd _ (by simp),
      ih (fun e2 he2 => IH e2 (by simp [he2])) (idx + 1) items hne hgrest, ?_⟩
    intro t ht ht'
    obtain ⟨ext, r1, hsh⟩ := trv_shape_full e _ (by simp) t ht
    rw [List.dropLast_concat] at hsh
    have hsh1 : t = items.dropLast ++
        (((items.getLastD ("", [])).1,
          ((items.getLastD ("", [])).2 ++ [idx]) ++ ext) :: r1) := by
      simpa using hsh
    obtain ⟨j, ext2, r2, hj, hsh2⟩ :=
      trvElems_key rest (idx + 1) items hne t ht'
    rw [hsh1] at hsh2
    have hcc := List.append_cancel_left hsh2
    simp only [List.cons.injEq, Prod.mk.injEq] at hcc
    have hsnd := hcc.1.2
    rw [List.append_assoc, List.singleton_append] at hsnd
    have := List.append_cancel_left hsnd
    simp only [List.cons.injEq] at this
    omega

theorem trv_nodup :
    ∀ (n : Nat) (v : JSON), sizeOf v ≤ n → goodDoc v = true →
      ∀ items : List (String × List Nat), items ≠ [] →
        ((trv v items).map Prod.fst).Nodup := by
  intro n
  induction n with
  | zero =>
    intro v h
    exfalso
    cases v <;> simp at h
  | succ n ih =>
    intro v h hg items hne
    cases v with
    | obj fields =>
      rw [show goodDoc (JSON.obj fields) =
        (nodupKeysB (fields.map Prod.fst) && goodFields fields) from rfl,
        Bool.and_eq_true] at hg
      refine trvFields_nodup fields ?_ items hg.1 hg.2
      intro kv hkv hgkv items2 hne2
      have hsz : sizeOf kv.2 ≤ n := by
        have := List.sizeOf_lt_of_mem hkv
        obtain ⟨a, b⟩ := kv
        simp at h this ⊢
        omega
      exact ih kv.2 hsz hgkv items2 hne2
    | arr xs =>
      rw [show goodDoc (JSON.arr xs) = goodElems xs from rfl] at hg
      refine trvElems_nodup xs ?_ 0 items hne hg
      intro e he hge items2 hne2
      have hsz : sizeOf e ≤ n := by
        have := List.sizeOf_lt_of_mem he
        simp at h ⊢
        omega
      exact ih e hsz hge items2 hne2
    | null => simp [trv]
    | bool b => simp [trv]
    | num m => simp [trv]
    | str st => simp [trv]

theorem trvFields_goodKeys (fields : List (String × JSON))
    (IH : ∀ kv ∈ fields, goodDoc kv.2 = true →
      ∀ items : List (String × List Nat), items ≠ [] →
        (∀ it ∈ items, goodKeyB it.1 = true) →
        ∀ t ∈ (trv kv.2 items).map Prod.fst, ∀ it ∈ t, goodKeyB it.1 = true) :
    ∀ items : List (String × List Nat),
      (∀ it ∈ items, goodKeyB it.1 = true) → goodFields fields = true →
      ∀ t ∈ (trvFields fields items).map Prod.fst, ∀ it ∈ t,
        goodKeyB it.1 = true := by
  induction fields with
  | nil => intro items _ _ t ht; simp [trvFields] at ht
  | cons kv rest ih =>
    intro items hgi hgf t ht
    obtain ⟨k, v⟩ := kv
    obtain ⟨hgk, hgv, hgrest⟩ := goodFields_cons k v rest hgf
    rw [show trvFields ((k, v) :: rest) items =
      trv v (items ++ [(k, [])]) ++ trvFields rest items from rfl,
      List.map_append] at ht
    rcases List.mem_append.mp ht with ht1 | ht2
    · refine IH (k, v) (by simp) hgv (items ++ [(k, [])]) (by simp) ?_ t ht1
      intro it hit
      rcases List.mem_append.mp hit with h1 | h2
      · exact hgi it h1
      · simp at h2
        rw [h2]
        exact hgk
    · exact ih (fun kv2 hkv2 => IH kv2 (by simp [hkv2])) items hgi hgrest t ht2

theorem trvElems_goodKeys (xs : List JSON)
    (IH : ∀ e ∈ xs, goodDoc e = true →
      ∀ items : List (String × List Nat), items ≠ [] →
        (∀ it ∈ items, goodKeyB it.1 = true) →
        ∀ t ∈ (trv e items).map Prod.fst, ∀ it ∈ t, goodKeyB it.1 = true) :
    ∀ (idx : Nat) (items : List (String × List Nat)), items ≠ [] →
      (∀ it ∈ items, goodKeyB it.1 = true) → goodElems xs = true →
      ∀ t ∈ (trvElems xs idx items).map Prod.fst, ∀ it ∈ t,
        goodKeyB it.1 = true := by
  induction xs with
  | nil => intro idx items _ _ _ t ht; simp [trvElems] at ht
  | cons e rest ih =>
    intro idx items hne hgi hge t ht
    obtain ⟨hgd, hgrest⟩ := goodElems_cons e rest hge
    rw [show trvElems (e :: rest) idx items =
      trv e (items.dropLast ++
        [((items.getLastD ("", [])).1,
          (items.getLastD ("", [])).2 ++ [idx])]) ++
      trvElems rest (idx + 1) items from rfl,
      List.map_append] at ht
    rcases List.mem_append.mp ht with ht1 | ht2
    · refine IH e (by simp) hgd _ (by simp) ?_ t ht1
      intro it hit
      rcases List.mem_append.mp hit with h1 | h2
      · exact hgi it (List.dropLast_subset items h1)
      · simp at h2
        rw [h2]
        have hm : items.getLastD ("", []) ∈ items :=
          getLastD_mem items hne ("", [])
        rw [List.getLastD_eq_getLast?] at hm
        exact hgi (items.getLast?.getD ("", [])) hm
    · exact ih (fun e2 he2 => IH e2 (by simp [he2])) (idx + 1) items hne hgi
        hgrest t ht2

theorem trv_goodKeys :
    ∀ (n : Nat) (v : JSON), sizeOf v ≤ n → goodDoc v = true →
      ∀ items : List (String × List Nat), items ≠ [] →
        (∀ it ∈ items, goodKeyB it.1 = true) →
        ∀ t ∈ (trv v items).map Prod.fst, ∀ it ∈ t,
          goodKeyB it.1 = true := by
  intro n
  induction n with
  | zero =>
    intro v h
    exfalso
    cases v <;> simp at h
  | succ n ih =>
    intro v h hg items hne hgi t ht
    cases v with
    | obj fields =>
      rw [show goodDoc (JSON.obj fields) =
        (nodupKeysB (fields.map Prod.fst) && goodFields fields) from rfl,
        Bool.and_eq_true] at hg
      refine trvFields_goodKeys fields ?_ items hgi hg.2 t ht
      intro kv hkv hgkv items2 hne2 hgi2
      have hsz : sizeOf kv.2 ≤ n := by
        have := List.sizeOf_lt_of_mem hkv
        obtain ⟨a, b⟩ := kv
        simp at h this ⊢
        omega
      exact ih kv.2 hsz hgkv items2 hne2 hgi2
    | arr xs =>
      rw [show goodDoc (JSON.arr xs) = goodElems xs from rfl] at hg
      refine trvElems_goodKeys xs ?_ 0 items hne hgi hg t ht
      intro e he hge items2 hne2 hgi2
      have hsz : sizeOf e ≤ n := by
        have := List.sizeOf_lt_of_mem he
        simp at h ⊢
        omega
      exact ih e hsz hge items2 hne2 hgi2
    | null => simp [trv] at ht; rw [ht]; exact hgi
    | bool b => simp [trv] at ht; rw [ht]; exact hgi
    | num m => simp [trv] at ht; rw [ht]; exact hgi
    | str st => simp [trv] at ht; rw [ht]; exact hgi

theorem trv_trace_nonempty (v : JSON) (items : List (String × List Nat))
    (hne : items ≠ []) : ∀ t ∈ (trv v items).map Prod.fst, t ≠ [] := by
  intro t ht
  obtain ⟨ext, rest1, hsh⟩ := trv_shape_full v items hne t ht
  rw [hsh]
  simp

/-- C8 counterexample: `flatten` does NOT always produce pairwise-distinct
paths. The document `{"a[0]": 1, "a": [2]}` has two distinct Python keys,
yet both leaves flatten to the same path `$.a[0]`, because a literal
bracket inside an object key is indistinguishable from a rendered array
index. -/
theorem flatten_duplicate_paths :
    ((flatten (JSON.obj [("a[0]", JSON.num 1),
        ("a", JSON.arr [JSON.num 2])])).map Prod.fst =
      ["$.a[0]", "$.a[0]"]) ∧
    ¬ ((flatten (JSON.obj [("a[0]", JSON.num 1),
        ("a", JSON.arr [JSON.num 2])])).map Prod.fst).Nodup := by
  constructor
  · rfl
  · decide

/-- C8 (amended): flattening is a pure function of the document, hence
deterministic, and the produced paths are pairwise distinct provided the
document is well-formed: every object has pairwise-distinct keys and no
key contains a literal `.` or `[` character (`goodDoc`). Without that
proviso distinct leaves can collide (see the counterexample). -/
theorem flatten_paths_nodup (d : JSON) (hg : goodDoc d = true) :
    ((flatten d).map Prod.fst).Nodup := by
  rw [flatten_eq_trv, List.map_map]
  have hre : (trv d [("$", [])]).map
      (Prod.fst ∘ fun tv : List (String × List Nat) × JSON =>
        (pyJoin '.' (tv.1.map renderStr), tv.2)) =
      ((trv d [("$", [])]).map Prod.fst).map
        (fun t => pyJoin '.' (t.map renderStr)) := by
    rw [List.map_map]
    rfl
  rw [hre]
  refine List.Nodup.map_on ?_
    (trv_nodup (sizeOf d) d (Nat.le_refl _) hg [("$", [])] (by simp))
  intro t1 ht1 t2 ht2 heq
  exact traceRender_inj t1 t2
    (trv_goodKeys (sizeOf d) d (Nat.le_refl _) hg [("$", [])] (by simp)
      (by decide) t1 ht1)
    (trv_goodKeys (sizeOf d) d (Nat.le_refl _) hg [("$", [])] (by simp)
      (by decide) t2 ht2)
    (trv_trace_nonempty d [("$", [])] (by simp) t1 ht1)
    (trv_trace_nonempty d [("$", [])] (by simp) t2 ht2)
    heq

/-- Witness for C8 at the concrete well-formed document
`{"a": 1, "b": [2, {"c": null}]}`. -/
theorem flatten_paths_nodup_witness :
    goodDoc (JSON.obj [("a", JSON.num 1),
      ("b", JSON.arr [JSON.num 2, JSON.obj [("c", JSON.null)]])]) = true ∧
    ((flatten (JSON.obj [("a", JSON.num 1),
      ("b", JSON.arr [JSON.num 2,
        JSON.obj [("c", JSON.null)]])])).map Prod.fst).Nodup :=
  ⟨by decide,
    flatten_paths_nodup (JSON.obj [("a", JSON.num 1),
      ("b", JSON.arr [JSON.num 2, JSON.obj [("c", JSON.null)]])])
      (by decide)⟩
